import Mathlib

/-!
Verification of the archmanweb man-page ingestion and resolution engine.

This file gives a shallow embedding, in Lean 4, of the core algorithms of the
archmanweb repository:

* the URL name resolver (`archmanweb/views/man_page.py`),
* the best-match ranking used to pick among duplicate pages,
* the path classifier and sync engine (`archmanweb/management/commands/man_update.py`),
* the archive extractor (`archmanweb/management/utils/finder.py`),
* the `.so`-inclusion resolver and entity validation (`archmanweb/models.py`),

together with theorems settling a list of claims about that code.

Python strings are modelled as `List Char` (named `Str` below) so that every
definition is executable by kernel reduction.  Database tables are modelled as
lists of records; Django querysets become list filters.  The external
`pyalpm.vercmp` version comparator is not part of the repository and is
threaded through the embedding as an explicit function parameter.
-/

namespace Archmanweb

/-- Python strings are modelled as lists of characters. -/
abbrev Str := List Char

/-- Converts a Lean string literal to the `Str` model. -/
def str (s : String) : Str := s.data

/-- Python `s.split(sep)` for a one-character separator: splits on every
occurrence of `sep`; the result always has at least one element and empty
fields are preserved. -/
def splitOnChar (sep : Char) : Str → List Str
  | [] => [[]]
  | c :: rest =>
      match splitOnChar sep rest with
      | [] => [[]]
      | part :: parts => if c = sep then [] :: part :: parts else (c :: part) :: parts

/-- Python `sep.join(parts)`. -/
def joinWith (sep : Str) : List Str → Str
  | [] => []
  | [p] => p
  | p :: rest => p ++ sep ++ joinWith sep rest

/-- Python `s.split(sep, maxsplit=1)`: the part before the first occurrence of
`sep`, and — when `sep` occurs — the remainder after it. -/
def splitFirst (sep : Char) : Str → Str × Option Str
  | [] => ([], none)
  | c :: rest =>
      if c = sep then ([], some rest)
      else
        match splitFirst sep rest with
        | (before, after) => (c :: before, after)

/-- The Python whitespace class `\s` (`str.strip()` default set). -/
def isPySpace (c : Char) : Bool :=
  c = ' ' || c = '\t' || c = '\n' || c = '\r' || c = '\x0b' || c = '\x0c'

/-- Python `s.strip()`. -/
def pyStrip (s : Str) : Str :=
  ((s.dropWhile isPySpace).reverse.dropWhile isPySpace).reverse

/-- Index of the last occurrence of `c` in `s` (Python `s.rfind(c)`, with
`none` for "not found"). -/
def rfind (c : Char) : Str → Option Nat
  | [] => none
  | a :: rest =>
      match rfind c rest with
      | some i => some (i + 1)
      | none => if a = c then some 0 else none

/-- Strict lexicographic comparison of strings by code point
(Python `s < t`). -/
def strLtB : Str → Str → Bool
  | _, [] => false
  | [], _ :: _ => true
  | a :: as, b :: bs => decide (a < b) || (a = b && strLtB as bs)

/-- Python comparison of `(int, str)` tuples, as produced by the section and
repository key functions. -/
def keyLt : Nat × Str → Nat × Str → Bool
  | (n1, s1), (n2, s2) => decide (n1 < n2) || (n1 = n2 && strLtB s1 s2)

/-- First index of `x` in `l` (Python `l.index(x)` guarded by `x in l`). -/
def idxOf (x : Str) : List Str → Option Nat
  | [] => none
  | y :: rest =>
      if y = x then some 0
      else match idxOf x rest with
           | some i => some (i + 1)
           | none => none

/-! ### Path helpers (Python `pathlib.PurePath` and `os.path`)

`parse_man_path` and the `.so` resolver use `PurePath.name`, `PurePath.stem`,
`PurePath.suffix`, `PurePath.parts` and `os.path.normpath`; these are modelled
here.  `PurePath` drops empty and `"."` components when parsing a path. -/

/-- The components of a relative path as `PurePath.parts` computes them:
split at `/`, dropping empty and `"."` components. -/
def pathParts (s : Str) : List Str :=
  (splitOnChar '/' s).filter (fun p => p ≠ [] && p ≠ str ".")

/-- `PurePath(s).name`: the final path component. -/
def pathName (s : Str) : Str :=
  (pathParts s).getLastD []

/-- `PurePath(s).parent` rendered back to a string (used for resolving
relative symlink targets; the sources only apply it to relative paths). -/
def pathParent (s : Str) : Str :=
  joinWith (str "/") (pathParts s).dropLast

/-- CPython's `stem`/`suffix` rule: the last dot of the file name splits it,
provided that dot is neither the first nor the last character. -/
def nameSplitsAtDot (nm : Str) : Option Nat :=
  match rfind '.' nm with
  | some i => if 0 < i && i + 1 < nm.length then some i else none
  | none => none

/-- `PurePath(s).stem`. -/
def pyStem (s : Str) : Str :=
  let nm := pathName s
  match nameSplitsAtDot nm with
  | some i => nm.take i
  | none => nm

/-- `PurePath(s).suffix` without its leading dot (the sources always strip it
with `pp.suffix[1:]`). -/
def pySuffixNoDot (s : Str) : Str :=
  let nm := pathName s
  match nameSplitsAtDot nm with
  | some i => nm.drop (i + 1)
  | none => []

/-- One step of CPython's `posixpath.normpath` component loop. -/
def normpathStep (comps : List Str) (comp : Str) : List Str :=
  if comp = [] || comp = str "." then comps
  else if comp ≠ str ".." || comps = [] || comps.getLastD [] = str ".." then
    comps ++ [comp]
  else comps.dropLast

/-- `os.path.normpath` for relative POSIX paths (the sync engine only
normalizes relative paths: absolute symlink targets are handled separately). -/
def normpath (s : Str) : Str :=
  let comps := (splitOnChar '/' s).foldl normpathStep []
  match comps with
  | [] => str "."
  | _ => joinWith (str "/") comps

/-! ### Best-match ranking (`archmanweb/views/man_page.py`, `_get_section_key`,
`_get_repo_key`, `_get_pkgver_key`, `_get_best_match`) -/

/-- The fixed section priority order of `_get_section_key`. -/
def SECTION_ORDER : List Str :=
  [str "1", str "n", str "l", str "8", str "6", str "3",
   str "0", str "2", str "5", str "7", str "4", str "9"]

/-- `_get_section_key`: listed sections sort first by list position; sections
whose first character is listed sort next, grouped by that character and
ordered lexically by the rest; all other sections sort last, lexically. -/
def _get_section_key (sec : Str) : Nat × Str :=
  match idxOf sec SECTION_ORDER with
  | some i => (i, [])
  | none =>
      match sec with
      | c :: rest =>
          match idxOf [c] SECTION_ORDER with
          | some i => (i + SECTION_ORDER.length, rest)
          | none => (100, sec)
      | [] => (100, sec)

/-- The fixed repository priority order of `_get_repo_key`. -/
def REPO_ORDER : List Str :=
  [str "core", str "extra", str "community", str "multilib",
   str "testing", str "community-testing", str "multilib-testing"]

/-- `_get_repo_key`: listed repositories sort first by list position, all
other repositories after them, lexically. -/
def _get_repo_key (repo : Str) : Nat × Str :=
  match idxOf repo REPO_ORDER with
  | some i => (i, [])
  | none => (REPO_ORDER.length, repo)

/-- The composite sort key of `_get_best_match.sort_key`: section key,
repository key, and the package version (compared via `vercmp`). -/
structure SortKey where
  sec : Nat × Str
  repo : Nat × Str
  ver : Str
deriving DecidableEq, Repr

/-- Python `<` on the sort-key triples: lexicographic, with the version
component ordered by `_get_pkgver_key`, i.e. `x.ver` precedes `y.ver` iff
`vercmp y.ver x.ver < 0` (the arguments are swapped in the source to order
the highest version first). -/
def sortKeyLt (vercmp : Str → Str → Int) (x y : SortKey) : Bool :=
  keyLt x.sec y.sec ||
    (x.sec = y.sec &&
      (keyLt x.repo y.repo ||
        (x.repo = y.repo && decide (vercmp y.ver x.ver < 0))))

/-- `sort_key` of `_get_best_match`, generic in the queryset row type: the
source reads the section field named by its `section` argument, plus
`man.package.repo` and `man.package.version`. -/
def sort_key {α : Type} (secOf repoOf verOf : α → Str) (m : α) : SortKey :=
  ⟨_get_section_key (secOf m), _get_repo_key (repoOf m), verOf m⟩

/-- The `≤` relation on rows that Python's stable `sorted` uses with the
`sort_key` function: `a` may stay before `b` iff `b`'s key is not strictly
smaller than `a`'s. -/
def rowLe (vercmp : Str → Str → Int) {α : Type} (secOf repoOf verOf : α → Str)
    (a b : α) : Prop :=
  sortKeyLt vercmp (sort_key secOf repoOf verOf b) (sort_key secOf repoOf verOf a) = false

instance {α : Type} (vercmp : Str → Str → Int) (secOf repoOf verOf : α → Str) :
    DecidableRel (rowLe vercmp secOf repoOf verOf) := by
  unfold rowLe; infer_instance

/-- `_get_best_match`: sort the queryset by `sort_key` (a stable sort, like
Python's `sorted`) and return the first element, or `None` for an empty
queryset. -/
def _get_best_match {α : Type} (vercmp : Str → Str → Int)
    (secOf repoOf verOf : α → Str) (queryset : List α) : Option α :=
  (List.insertionSort (rowLe vercmp secOf repoOf verOf) queryset).head?

/-! ### Data model (`archmanweb/models.py`)

The persisted entities.  Django's auto `id` fields are `Nat`; nullable
columns are `Option`; `build_date` is a Unix timestamp. -/

/-- The `Package` model. -/
structure Package where
  id : Nat
  repo : Str
  name : Str
  version : Str
  arch : Str
  description : Str
  url : Option Str
  build_date : Int
  licenses : List Str
deriving DecidableEq, Repr

/-- The `Content` model: a raw text blob with lazily populated derived
forms. -/
structure Content where
  id : Nat
  raw : Str
  html : Option Str
  txt : Option Str
  description : Option Str
deriving DecidableEq, Repr

/-- The `ManPage` model. -/
structure ManPage where
  id : Nat
  package_id : Nat
  name : Str
  «section» : Str
  lang : Str
  content_id : Nat
  converted_content_id : Option Nat
deriving DecidableEq, Repr

/-- The `SymbolicLink` model. -/
structure SymbolicLink where
  id : Nat
  package_id : Nat
  lang : Str
  from_section : Str
  from_name : Str
  to_section : Str
  to_name : Str
deriving DecidableEq, Repr

/-- The database tables read and written by the core. -/
structure Database where
  packages : List Package
  contents : List Content
  manpages : List ManPage
  symlinks : List SymbolicLink
deriving Repr

/-- `Package.objects.get(id=...)` (the row is unique by primary key; a
missing row would be an uncaught Python exception, modelled as `none`). -/
def getPackage (db : Database) (pid : Nat) : Option Package :=
  (db.packages.filter (fun p => p.id = pid)).head?

/-- Reads column `raw` of a `Content` row by primary key. -/
def getRaw (db : Database) (cid : Nat) : Option Str :=
  ((db.contents.filter (fun c => c.id = cid)).head?).map Content.raw

/-- `ManPage.clean`: name and section must be non-empty and neither section
nor language may contain a literal dot.  `true` means validation passes. -/
def manPageClean (m : ManPage) : Bool :=
  m.name ≠ [] && m.«section» ≠ [] && !m.«section».contains '.' && !m.lang.contains '.'

/-- `SymbolicLink.clean`: the link must not point to itself (same name and
section) and the language may not contain a dot. -/
def symbolicLinkClean (l : SymbolicLink) : Bool :=
  !(l.from_section = l.to_section && l.from_name = l.to_name) && !l.lang.contains '.'

/-! ### Name resolver (`archmanweb/views/man_page.py`) -/

/-- `_exists_name_section`: a man page with this name and a section starting
with `sec` exists, or a symbolic link source does. -/
def _exists_name_section (db : Database) (name sec : Str) : Bool :=
  db.manpages.any (fun m => m.name = name && sec.isPrefixOf m.«section») ||
  db.symlinks.any (fun l => l.from_name = name && sec.isPrefixOf l.from_section)

/-- `_exists_language`: some man page with this language exists. -/
def _exists_language (db : Database) (lang : Str) : Bool :=
  db.manpages.any (fun m => m.lang = lang)

/-- `_exists_name_language`: a man page with this name and language exists. -/
def _exists_name_language (db : Database) (name lang : Str) : Bool :=
  db.manpages.any (fun m => m.name = name && m.lang = lang)

/-- `_exists_name_section_language`: a man page (or symlink source) with this
name, a section starting with `sec`, and this language exists. -/
def _exists_name_section_language (db : Database) (name sec lang : Str) : Bool :=
  db.manpages.any (fun m => m.name = name && sec.isPrefixOf m.«section» && m.lang = lang) ||
  db.symlinks.any (fun l =>
    l.from_name = name && sec.isPrefixOf l.from_section && l.lang = lang)

/-- Python `a or b` for an optional string `a`: `b` when `a` is `None` or
empty. -/
def pyOr (a : Option Str) (b : Str) : Str :=
  match a with
  | some s => if s = [] then b else s
  | none => b

/-- `_parse_man_name_section_lang`: right-to-left greedy parsing of the URL
snippet `name[.«section»][.lang]`, probing the database for existence.
Returns `(name, section, lang)` with unset fields as `none`. -/
def _parse_man_name_section_lang (db : Database) (url_snippet : Str)
    (force_lang : Option Str := none) : Str × Option Str × Option Str :=
  let parts := splitOnChar '.' url_snippet
  if parts.length = 1 then
    (url_snippet, none, none)
  else
    let name := joinWith (str ".") parts.dropLast
    let last := parts.getLastD []
    if _exists_name_section db name last then
      (name, some last, none)
    else if parts.length = 2 then
      if force_lang.isSome && !_exists_language db last then
        (url_snippet, none, none)
      else if _exists_name_language db name (pyOr force_lang last) then
        (name, none, some (pyOr force_lang last))
      else
        (url_snippet, none, none)
    else if _exists_language db last then
      let name2 := joinWith (str ".") parts.dropLast.dropLast
      let sec2 := parts.dropLast.getLastD []
      if _exists_name_section_language db name2 sec2 (pyOr force_lang last) then
        (name2, some sec2, some (pyOr force_lang last))
      else if _exists_name_language db name (pyOr force_lang last) then
        (name, none, some (pyOr force_lang last))
      else
        (url_snippet, none, none)
    else
      (url_snippet, none, none)

/-! ### Page-serving view (`archmanweb/views/man_page.py`, `man_page`)

The queryset rows join each `ManPage` (or `SymbolicLink`) with its `Package`
(`select_related("package")`). -/

/-- `_get_package_filter` applied to a joined row: no constraint without a
scope, package-name constraint for `pkgname`, both for `repo`+`pkgname`. -/
def packageFilterOk (repo pkgname : Option Str) (pkg : Package) : Bool :=
  match repo, pkgname with
  | none, none => true
  | none, some pn => pkg.name = pn
  | some r, some pn => pkg.name = pn && pkg.repo = r
  | some _, none => true

/-- The `ManPage` queryset of the `man_page` view: filter by name, language,
optional section prefix and the repo/package scope, joined with `Package`. -/
def manPageQuery (db : Database) (man_name : Str) (man_section : Option Str)
    (lang : Str) (repo pkgname : Option Str) : List (ManPage × Package) :=
  (db.manpages.filterMap (fun m => (getPackage db m.package_id).map (fun p => (m, p)))).filter
    (fun mp =>
      mp.1.name = man_name && mp.1.lang = lang &&
      (match man_section with
       | none => true
       | some sec => sec.isPrefixOf mp.1.«section») &&
      packageFilterOk repo pkgname mp.2)

/-- The `SymbolicLink` queryset of `get_symlink`. -/
def symlinkQuery (db : Database) (man_name : Str) (man_section : Option Str)
    (lang : Str) (repo pkgname : Option Str) : List (SymbolicLink × Package) :=
  (db.symlinks.filterMap (fun l => (getPackage db l.package_id).map (fun p => (l, p)))).filter
    (fun lp =>
      lp.1.from_name = man_name && lp.1.lang = lang &&
      (match man_section with
       | none => true
       | some sec => sec.isPrefixOf lp.1.from_section) &&
      packageFilterOk repo pkgname lp.2)

/-- `get_symlink`: best match over the symlink queryset, ranked by
`from_section`. -/
def get_symlink (vercmp : Str → Str → Int) (db : Database) (repo pkgname : Option Str)
    (man_name : Str) (man_section : Option Str) (lang : Str) :
    Option (SymbolicLink × Package) :=
  _get_best_match vercmp (fun lp => lp.1.from_section) (fun lp => lp.2.repo)
    (fun lp => lp.2.version) (symlinkQuery db man_name man_section lang repo pkgname)

/-- Best match over the man-page queryset of the view, ranked by `section`. -/
def bestManPage (vercmp : Str → Str → Int) (db : Database) (repo pkgname : Option Str)
    (man_name : Str) (man_section : Option Str) (lang : Str) :
    Option (ManPage × Package) :=
  _get_best_match vercmp (fun mp => mp.1.«section») (fun mp => mp.2.repo)
    (fun mp => mp.2.version) (manPageQuery db man_name man_section lang repo pkgname)

/-- `reverse_man_url`: builds `/man/[repo/][pkgname/]name[.«section»][.lang][.type]`
(`reverse("index")` resolves to `/`).  Falsy (empty or `None`) parts are
omitted, as with Python truthiness. -/
def reverse_man_url (repo pkgname man_name : Str) (man_section man_lang content_type : Option Str) : Str :=
  let url := str "/man/"
  let url := if repo ≠ [] then url ++ repo ++ str "/" else url
  let url := if pkgname ≠ [] then url ++ pkgname ++ str "/" else url
  let url := url ++ man_name
  let url := match man_section with
             | some s => if s ≠ [] then url ++ str "." ++ s else url
             | none => url
  let url := match man_lang with
             | some l => if l ≠ [] then url ++ str "." ++ l else url
             | none => url
  match content_type with
  | some t => if t ≠ [] then url ++ str "." ++ t else url
  | none => url

/-- The responses the `man_page` view can produce.  Everything past the
point where a page is actually served (mandoc conversion, template
rendering) belongs to the excluded presentation layer and is abstracted as
`served` with the chosen page's id. -/
inductive HttpResponse where
  | errorStatus (status : Nat)
  | redirect (url : Str)
  | notFound
  | served (man_id : Nat)
deriving DecidableEq, Repr

/-- `try_redirect`: redirect to a symlink target (dropping the repo/package
scope), else retry the URL parse forcing the default language and redirect
if that parse differs; `none` means no redirect was found. -/
def try_redirect (vercmp : Str → Str → Int) (db : Database) (repo pkgname : Option Str)
    (man_name : Str) (man_section : Option Str) (lang : Str)
    (output_type : Option Str) (name_section_lang : Str) : Option HttpResponse :=
  match get_symlink vercmp db repo pkgname man_name man_section lang with
  | some lp =>
      some (.redirect (reverse_man_url [] [] lp.1.to_name (some lp.1.to_section)
        (some lp.1.lang) output_type))
  | none =>
      let parsed := _parse_man_name_section_lang db name_section_lang (some (str "en"))
      if (parsed.1 ≠ man_name ∨ parsed.2.1 ≠ man_section) ∧ parsed.2.2 = some (str "en") then
        some (.redirect (reverse_man_url (repo.getD []) (pkgname.getD []) parsed.1 parsed.2.1
          (some (str "en")) output_type))
      else
        none

/-- The `man_page` view, embedded down to the decision which page to serve.

The input validation, URL parsing, best-match lookup and all redirect logic
follow the source; a successful lookup with the exact requested section ends
in `served`. -/
def man_page (vercmp : Str → Str → Int) (db : Database) (repo pkgname : Option Str)
    (name_section_lang : Str) (url_output_type : Option Str) : HttpResponse :=
  if repo.isSome && pkgname.isNone then .errorStatus 500
  else if name_section_lang = [] then .errorStatus 400
  else
    let parsed := _parse_man_name_section_lang db name_section_lang
    let man_name := parsed.1
    let man_section := parsed.2.1
    let url_lang := parsed.2.2
    let lang := pyOr url_lang (str "en")
    let serve_output_type := pyOr url_output_type (str "html")
    if serve_output_type ≠ str "html" ∧ serve_output_type ≠ str "txt" ∧
        serve_output_type ≠ str "raw" then .errorStatus 400
    else
      match bestManPage vercmp db repo pkgname man_name man_section lang with
      | none =>
          match try_redirect vercmp db repo pkgname man_name man_section lang
              url_output_type name_section_lang with
          | some response => response
          | none => .notFound
      | some mp =>
          if man_section ≠ some mp.1.«section» then
            match get_symlink vercmp db repo pkgname man_name man_section lang with
            | some lp =>
                if keyLt (_get_section_key lp.1.from_section) (_get_section_key mp.1.«section») then
                  .redirect (reverse_man_url [] [] lp.1.to_name (some lp.1.to_section)
                    (some lp.1.lang) url_output_type)
                else
                  .redirect (reverse_man_url (repo.getD []) (pkgname.getD []) man_name
                    (some mp.1.«section») url_lang url_output_type)
            | none =>
                .redirect (reverse_man_url (repo.getD []) (pkgname.getD []) man_name
                  (some mp.1.«section») url_lang url_output_type)
          else .served mp.1.id

/-! ### Archive extractor (`archmanweb/management/utils/finder.py`) -/

/-- The fixed man-directory prefix `MANDIR`. -/
def MANDIR : Str := str "usr/share/man/"

/-- A tar entry's link-type metadata, as reported by `tarfile`: a regular
file with its raw bytes (modelled as `Str`), a hard link, or a symlink. -/
inductive TarKind where
  | reg (contents : Str)
  | lnk (target : Str)
  | sym (target : Str)
deriving DecidableEq, Repr

/-- A man-file entry of a package archive (`get_man_files` already filtered
the listing down to paths under `MANDIR` that are not directories). -/
structure TarEntry where
  path : Str
  kind : TarKind
deriving DecidableEq, Repr

/-- The tagged entries `get_man_contents` yields. -/
inductive ManContent where
  | file (path contents : Str)
  | hardlink (source target : Str)
  | symlink (source target : Str)
deriving DecidableEq, Repr

/-- Whether a yielded entry is a hard link. -/
def ManContent.isHardlink : ManContent → Bool
  | .hardlink _ _ => true
  | _ => false

/-- Whether a yielded entry is a regular file. -/
def ManContent.isFile : ManContent → Bool
  | .file _ _ => true
  | _ => false

/-- Strips a trailing `.gz` from a path. -/
def stripGz (p : Str) : Str :=
  if (str ".gz").isSuffixOf p then p.take (p.length - 3) else p

/-- The loop of `get_man_contents`: files and symlinks are yielded in archive
order (with `.gz` stripped and, for files, the contents decompressed via
`gunzip`), while hard links are accumulated and yielded only after the loop
(`yield from hardlinks`). -/
def get_man_contents_go (gunzip : Str → Str) : List TarEntry → List ManContent → List ManContent
  | [], hardlinks => hardlinks.reverse
  | e :: rest, hardlinks =>
      match e.kind with
      | .lnk target =>
          get_man_contents_go gunzip rest (.hardlink (stripGz e.path) (stripGz target) :: hardlinks)
      | .sym target =>
          .symlink (stripGz e.path) (stripGz target) :: get_man_contents_go gunzip rest hardlinks
      | .reg contents =>
          .file (stripGz e.path)
              (if (str ".gz").isSuffixOf e.path then gunzip contents else contents) ::
            get_man_contents_go gunzip rest hardlinks

/-- `ManPagesFinder.get_man_contents` for one opened archive. -/
def get_man_contents (gunzip : Str → Str) (man_files : List TarEntry) : List ManContent :=
  get_man_contents_go gunzip man_files []

/-! ### Path classifier (`man_update.py`, `parse_man_path`) -/

/-- `parse_man_path`: split the file name at its last dot into name and
section (empty section rejected), require the `MANDIR` prefix, then read the
language from the directory layout: `manN/` directly under `MANDIR` means
English, `lang/manN/` means `lang`; any other shape is rejected (`none`
models the `UnknownManPath` exception). -/
def parse_man_path (path : Str) : Option (Str × Str × Str) :=
  let man_name := pyStem path
  let man_section := pySuffixNoDot path
  if man_section = [] then none
  else if !MANDIR.isPrefixOf path then none
  else
    match pathParts (path.drop MANDIR.length) with
    | [] => none
    | p0 :: rest =>
        if (str "man").isPrefixOf p0 then some (man_name, man_section, str "en")
        else
          match rest with
          | p1 :: _ =>
              if (str "man").isPrefixOf p1 then some (man_name, man_section, p0)
              else none
          | [] => none

/-- The classification applied to each regular-file archive path by
`update_man_pages`: strip `.gz` (done by the extractor), run
`parse_man_path`, then split an embedded encoding hint (a dot-separated
second part of the language value, e.g. the `ru.KOI8-R/` man directory) off
the language. -/
def classify (path : Str) : Option (Str × Str × Str × Option Str) :=
  match parse_man_path (stripGz path) with
  | none => none
  | some (man_name, man_section, man_lang) =>
      if man_lang.contains '.' then
        match splitFirst '.' man_lang with
        | (lang, hint) => some (man_name, man_section, lang, hint)
      else
        some (man_name, man_section, man_lang, none)

/-! ### Sync engine, package pass (`man_update.py`, `update_packages`) -/

/-- A package as reported by the mirror (a `pyalpm` package object). -/
structure AlpmPackage where
  name : Str
  version : Str
  arch : Str
  desc : Str
  url : Option Str
  builddate : Int
  licenses : List Str
deriving DecidableEq, Repr

/-- `Package.objects.get(repo=..., name=...)` (`(name, repo)` is unique
together, so the first match models `get`). -/
def findPackage (packages : List Package) (repo name : Str) : Option Package :=
  (packages.filter (fun p => p.repo = repo && p.name = name)).head?

/-- Saves a package row: replaces the row with the same primary key, or
appends the row when it is new. -/
def savePackage (packages : List Package) (row : Package) : List Package :=
  if packages.any (fun p => p.id = row.id) then
    packages.map (fun p => if p.id = row.id then row else p)
  else packages ++ [row]

/-- The body of the `update_packages` loop for one package observed in one
mirror repository: decide whether the package counts as updated (mirror
version strictly newer than the stored one under `vercmp`, or the force
flag, or no stored row), and — exactly in that case — refresh the stored
row's volatile fields and save it.  Returns the new package table and
whether the package was appended to `updated_pkgs`. -/
def update_packages_step (vercmp : Str → Str → Int) (packages : List Package)
    (repo : Str) (pkg : AlpmPackage) (force : Bool) (next_id : Nat) :
    List Package × Bool :=
  match findPackage packages repo pkg.name with
  | some db_package =>
      if vercmp db_package.version pkg.version = -1 ∨ force then
        (savePackage packages
          { db_package with
            version := pkg.version
            description := pkg.desc
            url := pkg.url
            build_date := pkg.builddate
            licenses := pkg.licenses }, true)
      else
        -- skip void update of db_package (`continue`)
        (packages, false)
  | none =>
      (savePackage packages
        { id := next_id
          repo := repo
          name := pkg.name
          arch := pkg.arch
          version := pkg.version
          description := pkg.desc
          url := pkg.url
          build_date := pkg.builddate
          licenses := pkg.licenses }, true)

/-! ### Inclusion resolver (`archmanweb/models.py`)

`resolve_so_link` and `get_preprocessed_content` resolve the roff `.so`
macro.  Errors model the `SoelimError` exception; `dbMiss` models uncaught
Django exceptions on rows that the schema's unique constraints rule out
(`MultipleObjectsReturned`) or on dangling content references. -/

/-- The `SoelimError` variants raised by the inclusion resolver, plus
`dbMiss` for uncaught database errors (see above). -/
inductive SoelimError where
  | unknownTarget (target : Str)
  | ambiguousTarget (target : Str)
  | inclusionCycle
  | depthExceeded
  | dbMiss
deriving DecidableEq, Repr

/-- Strips roff comment lines and surrounding whitespace: the source
replaces every line matching `^\.\\".*` (multiline) by the empty string and
then strips the result. -/
def stripComments (raw : Str) : Str :=
  pyStrip (joinWith (str "\n")
    ((splitOnChar '\n' raw).map
      (fun l => if (str ".\\\"").isPrefixOf l then [] else l)))

/-- The character class `[A-Za-z0-9@._+\-:\[\]\/]` of the `.so` regexes. -/
def soTargetChar (c : Char) : Bool :=
  c.isAlpha || c.isDigit || c = '@' || c = '.' || c = '_' || c = '+' ||
  c = '-' || c = ':' || c = '[' || c = ']' || c = '/'

/-- Matches `^\.so (?P<target>[A-Za-z0-9@._+\-:\[\]\/]+)\s*$` against a
string and returns the target.  Since the target class contains no
whitespace, the regex matches exactly the strings of the form
`.so <target>` followed by whitespace only. -/
def soDirective (s : Str) : Option Str :=
  if (str ".so ").isPrefixOf s then
    let rest := s.drop 4
    let target := rest.takeWhile soTargetChar
    if target ≠ [] && (rest.drop target.length).all isPySpace then some target
    else none
  else none

/-- The target man-page lookup shared by `resolve_so_link` and the inline
`repl` of `get_preprocessed_content`: the target path's trailing
`name.section`, matched against pages of the same language. -/
def soTargetQuery (db : Database) (target : Str) (lang : Str) : List ManPage :=
  db.manpages.filter (fun m =>
    m.«section» = pySuffixNoDot target && m.name = pyStem target && m.lang = lang)

/-- The content id `resolve_so_link` resolves for a page whose
`converted_content_id` is unset: the page's own content unless the whole
(comment-stripped) content is a single `.so` directive, in which case the
target page's content id — looked up by name, section and language, with
ambiguity resolved by preferring the same package. -/
def resolve_so_target (db : Database) (page : ManPage) : Except SoelimError Nat :=
  match getRaw db page.content_id with
  | none => .error .dbMiss
  | some raw =>
      match soDirective (stripComments raw) with
      | none => .ok page.content_id
      | some target =>
          match soTargetQuery db target page.lang with
          | [] => .error (.unknownTarget target)
          | [m] => .ok m.content_id
          | q =>
              match q.filter (fun m => m.package_id = page.package_id) with
              | [m] => .ok m.content_id
              | [] => .error (.ambiguousTarget target)
              | _ => .error .dbMiss

/-- `ManPage.resolve_so_link`: a no-op once `converted_content_id` is set;
otherwise resolves and stores the converted-content pointer (on error the
exception propagates before `save`, leaving the stored row unchanged). -/
def resolve_so_link (db : Database) (page : ManPage) : Except SoelimError ManPage :=
  match page.converted_content_id with
  | some _ => .ok page
  | none =>
      match resolve_so_target db page with
      | .error e => .error e
      | .ok cid => .ok { page with converted_content_id := some cid }

/-- Results of recursive `.so` elimination: success, a raised
`SoelimError`, or exhaustion of the modelling fuel (the source has no fuel;
a `.outOfFuel`-free result for every sufficiently large fuel shows the
recursion terminates). -/
inductive PreprocResult (α : Type) where
  | ok (val : α)
  | err (e : SoelimError)
  | outOfFuel
deriving DecidableEq, Repr

/-- The outcome of the inline `repl` lookup of `get_preprocessed_content`
for one `.so` target: mandoc's literal fallback string, a recursive
resolution of a page, or an uncaught database error. -/
inductive ReplOutcome where
  | fallback
  | recurse (m : ManPage)
  | dbMiss
deriving DecidableEq, Repr

/-- The `repl` lookup: count the matching pages; none means the fallback
string, exactly one means recursing into it, several mean recursing into
the same-package match if there is exactly one, else the fallback. -/
def replLookup (db : Database) (page : ManPage) (target : Str) : ReplOutcome :=
  match soTargetQuery db target page.lang with
  | [] => .fallback
  | [m] => .recurse m
  | q =>
      match q.filter (fun m => m.package_id = page.package_id) with
      | [m] => .recurse m
      | [] => .fallback
      | _ => .dbMiss

/-- mandoc's fallback text for an invalid `.so` reference. -/
def soFallback (target : Str) : Str :=
  str "See the file " ++ target ++ str "."

/-- Processes the lines of a page's converted content: each line that is a
full-line `.so` directive is replaced by the recursively resolved content of
its target (`recur` is the recursive call at the next depth), other lines
are kept; a raised error propagates. -/
def gpcLines (db : Database) (page : ManPage) (recur : ManPage → PreprocResult Str) :
    List Str → PreprocResult (List Str)
  | [] => .ok []
  | line :: rest =>
      let lineResult : PreprocResult Str :=
        match soDirective line with
        | none => .ok line
        | some target =>
            match replLookup db page target with
            | .fallback => .ok (soFallback target)
            | .dbMiss => .err .dbMiss
            | .recurse m => recur m
      match lineResult with
      | .err e => .err e
      | .outOfFuel => .outOfFuel
      | .ok l =>
          match gpcLines db page recur rest with
          | .err e => .err e
          | .outOfFuel => .outOfFuel
          | .ok ls => .ok (l :: ls)

/-- Inserts a page id into the visited set (`visited_ids | {self.id}`). -/
def addId (i : Nat) (visited : List Nat) : List Nat :=
  if i ∈ visited then visited else i :: visited

/-- `ManPage.get_preprocessed_content`, with `fuel` bounding the modelled
recursion depth.  On entry with a caller-provided visited set, a page whose
id was already visited raises the inclusion-cycle error and a recursion
level above 100 raises the depth-exceeded error; the root call installs
`{self.id}` as the visited set and skips both checks.  The body resolves
the page's `.so` "hardlink", reads the converted content, and eliminates
the remaining full-line `.so` inclusions recursively, passing the visited
set extended by this page's id at level + 1. -/
def get_preprocessed_content (db : Database) :
    Nat → ManPage → Option (List Nat) → Nat → PreprocResult Str
  | 0, _, _, _ => .outOfFuel
  | fuel + 1, page, visited, level =>
      let body : List Nat → PreprocResult Str := fun visited_ids =>
        match (match page.converted_content_id with
               | some cid => Except.ok cid
               | none => resolve_so_target db page) with
        | .error e => .err e
        | .ok cid =>
            match getRaw db cid with
            | none => .err .dbMiss
            | some content =>
                match gpcLines db page
                    (fun m => get_preprocessed_content db fuel m
                      (some (addId page.id visited_ids)) (level + 1))
                    (splitOnChar '\n' content) with
                | .err e => .err e
                | .outOfFuel => .outOfFuel
                | .ok ls => .ok (joinWith (str "\n") ls)
      match visited with
      | none => body [page.id]
      | some ids =>
          if page.id ∈ ids then .err .inclusionCycle
          else if level > 100 then .err .depthExceeded
          else body ids

/-! ### Sync engine, man-page pass (`man_update.py`, `update_man_pages`)

The per-package reconciliation: process the extracted entries, accumulating
the set of `(name, section, lang)` keys seen, then delete the stored pages
of the package whose key was not seen.  `decode` models the byte-to-text
`decode(text, encoding_hint=...)` helper (charset fallback is I/O-free but
involves the external `chardet`; the claims only need it as a function). -/

/-- The `(name, section, lang)` key of a man page within one package. -/
abbrev ManKey := Str × Str × Str

/-- Mutable state of one `update_man_pages` run: the three reconciled tables
plus fresh primary keys for created rows. -/
structure SyncState where
  contents : List Content
  manpages : List ManPage
  symlinks : List SymbolicLink
  next_content_id : Nat
  next_man_id : Nat
  next_symlink_id : Nat
deriving Repr

/-- Failures that abort the whole sync transaction: a `full_clean`
`ValidationError`, or an uncaught database error (a hardlink target that
does not exist, or a dangling content reference). -/
inductive SyncError where
  | validationError
  | dbMiss
deriving DecidableEq, Repr

/-- `ManPage.objects.get(package_id=..., name=..., section=..., lang=...)`
(unique together, so the first match models `get`). -/
def findManPage (manpages : List ManPage) (pkgId : Nat) (name sec lang : Str) :
    Option ManPage :=
  (manpages.filter (fun m =>
    m.package_id = pkgId && m.name = name && m.«section» = sec && m.lang = lang)).head?

/-- `Content.objects` lookup by primary key. -/
def findContent (contents : List Content) (cid : Nat) : Option Content :=
  (contents.filter (fun c => c.id = cid)).head?

/-- `SymbolicLink.objects.get(package_id=..., lang=..., from_section=...,
from_name=...)` (unique together). -/
def findSymlink (symlinks : List SymbolicLink) (pkgId : Nat) (lang fsec fname : Str) :
    Option SymbolicLink :=
  (symlinks.filter (fun l =>
    l.package_id = pkgId && l.lang = lang && l.from_section = fsec &&
    l.from_name = fname)).head?

/-- Saves a content row (replace by primary key, append if new). -/
def saveContent (contents : List Content) (row : Content) : List Content :=
  if contents.any (fun c => c.id = row.id) then
    contents.map (fun c => if c.id = row.id then row else c)
  else contents ++ [row]

/-- Saves a man-page row (replace by primary key, append if new). -/
def saveManPage (manpages : List ManPage) (row : ManPage) : List ManPage :=
  if manpages.any (fun m => m.id = row.id) then
    manpages.map (fun m => if m.id = row.id then row else m)
  else manpages ++ [row]

/-- Saves a symbolic-link row (replace by primary key, append if new). -/
def saveSymlink (symlinks : List SymbolicLink) (row : SymbolicLink) : List SymbolicLink :=
  if symlinks.any (fun l => l.id = row.id) then
    symlinks.map (fun l => if l.id = row.id then row else l)
  else symlinks ++ [row]

/-- `content.replace("\0", "")`: the DBMS cannot hold NUL bytes. -/
def removeNuls (s : Str) : Str :=
  s.filter (fun c => c ≠ '\x00')

/-- Splits the embedded encoding hint off a language value
(`man_lang.split(".", maxsplit=1)` guarded by `"." in man_lang`). -/
def splitEncodingHint (lang : Str) : Str × Option Str :=
  if lang.contains '.' then splitFirst '.' lang else (lang, none)

/-- Processing of one `("file", path, content)` entry: classify the path
(skip on failure), split the encoding hint, decode, strip NULs, skip empty
content and duplicate keys, then record the key and upsert the man page:
an existing row gets its content blob overwritten (derived forms nulled), a
new row gets a fresh content blob and must pass `full_clean` before being
saved. -/
def process_file (decode : Str → Option Str → Str) (pkgId : Nat)
    (st : SyncState) (keys : List ManKey) (path contents : Str) :
    Except SyncError (SyncState × List ManKey) :=
  match parse_man_path path with
  | none => .ok (st, keys)
  | some (man_name, man_section, lang0) =>
      let hintSplit := splitEncodingHint lang0
      let man_lang := hintSplit.1
      let content := removeNuls (decode contents hintSplit.2)
      if content = [] then .ok (st, keys)
      else if (man_name, man_section, man_lang) ∈ keys then .ok (st, keys)
      else
        let keys2 := (man_name, man_section, man_lang) :: keys
        match findManPage st.manpages pkgId man_name man_section man_lang with
        | some db_man =>
            match findContent st.contents db_man.content_id with
            | none => .error .dbMiss
            | some db_content =>
                .ok ({ st with
                  contents := saveContent st.contents
                    { db_content with raw := content, html := none, txt := none } }, keys2)
        | none =>
            let db_content : Content :=
              { id := st.next_content_id, raw := content, html := none, txt := none,
                description := none }
            let db_man : ManPage :=
              { id := st.next_man_id, package_id := pkgId, name := man_name,
                «section» := man_section, lang := man_lang,
                content_id := db_content.id, converted_content_id := none }
            if manPageClean db_man then
              .ok ({ st with
                contents := saveContent st.contents db_content,
                next_content_id := st.next_content_id + 1,
                manpages := saveManPage st.manpages db_man,
                next_man_id := st.next_man_id + 1 }, keys2)
            else .error .validationError

/-- Processing of one `("hardlink", source, target)` entry: classify both
paths (skip on failure), drop encoding hints from the languages, skip
same-key redirects and duplicate keys, then record the source key, require
the target page to exist already, and upsert a source row sharing the
target's raw content, validated by `full_clean`. -/
def process_hardlink (pkgId : Nat) (st : SyncState) (keys : List ManKey)
    (source target : Str) : Except SyncError (SyncState × List ManKey) :=
  match parse_man_path source with
  | none => .ok (st, keys)
  | some (source_name, source_section, slang0) =>
      match parse_man_path target with
      | none => .ok (st, keys)
      | some (target_name, target_section, tlang0) =>
          let source_lang := (splitEncodingHint slang0).1
          let target_lang := (splitEncodingHint tlang0).1
          if target_lang = source_lang ∧ target_section = source_section ∧
              target_name = source_name then .ok (st, keys)
          else if (source_name, source_section, source_lang) ∈ keys then .ok (st, keys)
          else
            let keys2 := (source_name, source_section, source_lang) :: keys
            match findManPage st.manpages pkgId target_name target_section target_lang with
            | none => .error .dbMiss
            | some man_target =>
                match findManPage st.manpages pkgId source_name source_section source_lang with
                | some m =>
                    let man_source := { m with content_id := man_target.content_id }
                    if manPageClean man_source then
                      .ok ({ st with manpages := saveManPage st.manpages man_source }, keys2)
                    else .error .validationError
                | none =>
                    let man_source : ManPage :=
                      { id := st.next_man_id, package_id := pkgId, name := source_name,
                        «section» := source_section, lang := source_lang,
                        content_id := man_target.content_id, converted_content_id := none }
                    if manPageClean man_source then
                      .ok ({ st with
                        manpages := saveManPage st.manpages man_source,
                        next_man_id := st.next_man_id + 1 }, keys2)
                    else .error .validationError

/-- Processing of one `("symlink", source, target)` entry: classify the
source, resolve the target path (root-relative, or relative to the source's
directory and normalized), classify it, drop encoding hints, skip
cross-language and self targets, then upsert a `SymbolicLink` row keyed by
the source, validated by `full_clean`.  Symlinks do not contribute to the
key set. -/
def process_symlink (pkgId : Nat) (st : SyncState) (keys : List ManKey)
    (source target : Str) : Except SyncError (SyncState × List ManKey) :=
  match parse_man_path source with
  | none => .ok (st, keys)
  | some (source_name, source_section, slang0) =>
      let target2 :=
        match target with
        | '/' :: rest => rest
        | _ => normpath (pathParent source ++ str "/" ++ target)
      match parse_man_path target2 with
      | none => .ok (st, keys)
      | some (target_name, target_section, tlang0) =>
          let source_lang := (splitEncodingHint slang0).1
          let target_lang := (splitEncodingHint tlang0).1
          if target_lang ≠ source_lang then .ok (st, keys)
          else if target_section = source_section ∧ target_name = source_name then
            .ok (st, keys)
          else
            let db_link : SymbolicLink :=
              match findSymlink st.symlinks pkgId source_lang source_section source_name with
              | some l => { l with to_section := target_section, to_name := target_name }
              | none =>
                  { id := st.next_symlink_id, package_id := pkgId, lang := source_lang,
                    from_section := source_section, from_name := source_name,
                    to_section := target_section, to_name := target_name }
            if symbolicLinkClean db_link then
              .ok ({ st with
                symlinks := saveSymlink st.symlinks db_link,
                next_symlink_id := st.next_symlink_id + 1 }, keys)
            else .error .validationError

/-- Dispatch on the tagged entry kind (`for t, v1, v2 in ...`). -/
def process_entry (decode : Str → Option Str → Str) (pkgId : Nat)
    (acc : SyncState × List ManKey) (entry : ManContent) :
    Except SyncError (SyncState × List ManKey) :=
  match entry with
  | .file path contents => process_file decode pkgId acc.1 acc.2 path contents
  | .hardlink source target => process_hardlink pkgId acc.1 acc.2 source target
  | .symlink source target => process_symlink pkgId acc.1 acc.2 source target

/-- Processes all entries of one package in order, threading the state and
the accumulated key set; a raised error aborts the run. -/
def process_entries (decode : Str → Option Str → Str) (pkgId : Nat) :
    SyncState × List ManKey → List ManContent → Except SyncError (SyncState × List ManKey)
  | acc, [] => .ok acc
  | acc, e :: rest =>
      match process_entry decode pkgId acc e with
      | .error err => .error err
      | .ok acc2 => process_entries decode pkgId acc2 rest

/-- The deletion loop: man pages of the package whose `(name, section, lang)`
key was not accumulated in this pass are deleted. -/
def delete_missing_pages (st : SyncState) (pkgId : Nat) (keys : List ManKey) : SyncState :=
  { st with manpages := st.manpages.filter (fun m =>
      m.package_id ≠ pkgId || (m.name, m.«section», m.lang) ∈ keys) }

/-- The per-package body of `update_man_pages`: if the package's man-file
enumeration yields nothing, the package is skipped entirely (`continue`);
otherwise all entries are processed and the stale pages deleted. -/
def update_package_man_pages (decode : Str → Option Str → Str) (st : SyncState)
    (pkgId : Nat) (files : List Str) (entries : List ManContent) :
    Except SyncError SyncState :=
  if files = [] then .ok st
  else
    match process_entries decode pkgId (st, []) entries with
    | .error e => .error e
    | .ok (st2, keys) => .ok (delete_missing_pages st2 pkgId keys)

/-! ### Auxiliary definitions for the theorems -/

/-- The non-hardlink entries of an archive, in order (used to characterize
the yield order of `get_man_contents`). -/
def mainEntries (gunzip : Str → Str) : List TarEntry → List ManContent
  | [] => []
  | e :: rest =>
      match e.kind with
      | .lnk _ => mainEntries gunzip rest
      | .sym target => .symlink (stripGz e.path) (stripGz target) :: mainEntries gunzip rest
      | .reg contents =>
          .file (stripGz e.path)
              (if (str ".gz").isSuffixOf e.path then gunzip contents else contents) ::
            mainEntries gunzip rest

/-- The hardlink entries of an archive, in order. -/
def hardlinkEntries : List TarEntry → List ManContent
  | [] => []
  | e :: rest =>
      match e.kind with
      | .lnk target => .hardlink (stripGz e.path) (stripGz target) :: hardlinkEntries rest
      | _ => hardlinkEntries rest

/-- A concrete executable stand-in for the external `pyalpm.vercmp`, used
only to instantiate counterexamples and witnesses; like `pyalpm.vercmp` it
returns `0` on identical version strings and is antisymmetric. -/
def vercmpEq (a b : Str) : Int :=
  if a = b then 0 else if strLtB a b then -1 else 1

/-! #### Concrete sample data for witnesses and counterexamples -/

/-- Sample stored package row (repo `core`). -/
def pkgRowC3 : Package :=
  ⟨1, str "core", str "foo", str "1.0-1", str "x86_64", str "old description",
   none, 0, []⟩

/-- Sample mirror package carrying the same version but a different
description. -/
def alpmC3 : AlpmPackage :=
  ⟨str "foo", str "1.0-1", str "x86_64", str "new description", none, 5, []⟩

/-- Sample archive listing: two regular files around a hard link. -/
def entriesC7 : List TarEntry :=
  [⟨str "usr/share/man/man1/a.1.gz", .reg (str "A")⟩,
   ⟨str "usr/share/man/man1/b.1.gz", .lnk (str "usr/share/man/man1/a.1.gz")⟩,
   ⟨str "usr/share/man/man5/c.5.gz", .reg (str "C")⟩]

/-- Sample database for the `.so`-resolver witnesses: `pageC6` has plain
content, `pageC6b` is a pure `.so` alias of it. -/
def contentC6 : Content := ⟨1, str "plain text", none, none, none⟩

/-- Raw content that is exactly a `.so` directive pointing at `target.1`. -/
def contentC6b : Content := ⟨2, str ".so target.1", none, none, none⟩

/-- The page `target.1` with plain content. -/
def pageC6 : ManPage := ⟨1, 1, str "target", str "1", str "en", 1, none⟩

/-- The alias page whose whole content is `.so target.1`. -/
def pageC6b : ManPage := ⟨2, 1, str "alias", str "1", str "en", 2, none⟩

/-- Database holding the two `.so`-resolver sample pages. -/
def dbC6 : Database :=
  ⟨[], [contentC6, contentC6b], [pageC6, pageC6b], []⟩

/-- Sample package for the page-serving witness. -/
def pkgC10 : Package :=
  ⟨1, str "core", str "pkgA", str "1.0-1", str "x86_64", str "d", none, 0, []⟩

/-- Stored page `foo(1p)`: the requested section `1` matches it only as a
prefix. -/
def pageC10 : ManPage := ⟨1, 1, str "foo", str "1p", str "en", 1, none⟩

/-- Stored symlink `foo(1)` → `bar(1)`, whose section ranks better than
`1p`. -/
def linkC10 : SymbolicLink :=
  ⟨1, 1, str "en", str "1", str "foo", str "1", str "bar"⟩

/-- Database for the page-serving witness. -/
def dbC10 : Database := ⟨[pkgC10], [contentC6], [pageC10], [linkC10]⟩

/-- A trivial stand-in for the byte-decoding helper (identity, ignoring the
encoding hint), used to instantiate sync-engine witnesses. -/
def decodeId : Str → Option Str → Str := fun s _ => s

/-- The primary-key discipline the database enforces on the `ManPage`
table: ids are unique and the id counter is fresh. -/
def ManIdsOk (st : SyncState) : Prop :=
  (st.manpages.map ManPage.id).Nodup ∧ ∀ m ∈ st.manpages, m.id < st.next_man_id

/-- A stale stored page of package 1 (its key will not reappear). -/
def stalePageC8 : ManPage := ⟨7, 1, str "old", str "1", str "en", 7, none⟩

/-- Sync state holding only the stale page. -/
def stC8 : SyncState := ⟨[⟨7, str "x", none, none, none⟩], [stalePageC8], [], 10, 10, 10⟩

/-- One regular-file entry shipping `a(1)`. -/
def entriesC8 : List ManContent :=
  [.file (str "usr/share/man/man1/a.1") (str "hello")]

/-- One `.so` inclusion step from page `p` to page `q`, extracted from the
code paths of `get_preprocessed_content`: `p` is not a pure alias
(`resolve_so_link` keeps its own content), its content contains a full-line
`.so` directive — the first such line — whose target the inline `repl`
lookup resolves to `q`. -/
def ChainStep (db : Database) (p q : ManPage) : Prop :=
  p.converted_content_id = none ∧
  ∃ raw pre line post target,
    getRaw db p.content_id = some raw ∧
    soDirective (stripComments raw) = none ∧
    splitOnChar '\n' raw = pre ++ line :: post ∧
    soDirective line = some target ∧
    (∀ l ∈ pre, soDirective l = none) ∧
    replLookup db p target = .recurse q

/-- Content of the sample page `a(1)`: includes `b.1` mid-document. -/
def contentC5a : Content := ⟨1, str "x\n.so b.1", none, none, none⟩

/-- Content of the sample page `b(1)`: includes `a.1` mid-document. -/
def contentC5b : Content := ⟨2, str "y\n.so a.1", none, none, none⟩

/-- Sample page `a(1)`. -/
def pageC5a : ManPage := ⟨1, 1, str "a", str "1", str "en", 1, none⟩

/-- Sample page `b(1)`. -/
def pageC5b : ManPage := ⟨2, 1, str "b", str "1", str "en", 2, none⟩

/-- Database with the inclusion cycle `a(1) → b(1) → a(1)`. -/
def dbC5 : Database := ⟨[], [contentC5a, contentC5b], [pageC5a, pageC5b], []⟩

end Archmanweb

namespace Archmanweb

/-! ## Theorems -/

/-! ### Helper lemmas -/

theorem splitFirst_fst_not_mem (sep : Char) (s : Str) : sep ∉ (splitFirst sep s).1 := by
  induction s with
  | nil => simp [splitFirst]
  | cons c rest ih =>
      by_cases h : c = sep
      · simp [splitFirst, h]
      · simp only [splitFirst, h, if_false, List.mem_cons]
        push_neg
        exact ⟨fun hh => h hh.symm, ih⟩

theorem get_man_contents_go_eq (gunzip : Str → Str) (entries : List TarEntry)
    (acc : List ManContent) :
    get_man_contents_go gunzip entries acc =
      mainEntries gunzip entries ++ acc.reverse ++ hardlinkEntries entries := by
  induction entries generalizing acc with
  | nil => simp [get_man_contents_go, mainEntries, hardlinkEntries]
  | cons e rest ih =>
      cases hk : e.kind with
      | lnk target =>
          simp [get_man_contents_go, mainEntries, hardlinkEntries, hk, ih]
      | sym target =>
          simp [get_man_contents_go, mainEntries, hardlinkEntries, hk, ih]
      | reg contents =>
          simp [get_man_contents_go, mainEntries, hardlinkEntries, hk, ih]

theorem mainEntries_not_hardlink (gunzip : Str → Str) (entries : List TarEntry) :
    ∀ e ∈ mainEntries gunzip entries, e.isHardlink = false := by
  induction entries with
  | nil => simp [mainEntries]
  | cons e rest ih =>
      cases hk : e.kind with
      | lnk target => simpa [mainEntries, hk] using ih
      | sym target =>
          intro x hx
          rcases (by simpa [mainEntries, hk] using hx : _ ∨ _) with h | h
          · subst h; rfl
          · exact ih x h
      | reg contents =>
          intro x hx
          rcases (by simpa [mainEntries, hk] using hx : _ ∨ _) with h | h
          · subst h; rfl
          · exact ih x h

theorem hardlinkEntries_hardlink (entries : List TarEntry) :
    ∀ e ∈ hardlinkEntries entries, e.isHardlink = true := by
  induction entries with
  | nil => simp [hardlinkEntries]
  | cons e rest ih =>
      cases hk : e.kind with
      | lnk target =>
          intro x hx
          rcases (by simpa [hardlinkEntries, hk] using hx : _ ∨ _) with h | h
          · subst h; rfl
          · exact ih x h
      | sym target => simpa [hardlinkEntries, hk] using ih
      | reg contents => simpa [hardlinkEntries, hk] using ih

/-! ### C7: hard links are yielded after all regular files -/

/-- C7: for every package archive, `get_man_contents` yields every
hard-link entry after all regular-file entries: whenever position `i` of
the yielded sequence is a regular file and position `j` is a hard link,
`i < j`.  (Consequently the sync engine has already stored the target
page's row when it processes a hardlink.) -/
theorem C7_hardlinks_after_files (gunzip : Str → Str) (entries : List TarEntry)
    (i j : Nat) (hi : i < (get_man_contents gunzip entries).length)
    (hj : j < (get_man_contents gunzip entries).length)
    (hfile : ((get_man_contents gunzip entries).get ⟨i, hi⟩).isFile = true)
    (hlink : ((get_man_contents gunzip entries).get ⟨j, hj⟩).isHardlink = true) :
    i < j := by
  have hout : get_man_contents gunzip entries =
      mainEntries gunzip entries ++ hardlinkEntries entries := by
    simpa using get_man_contents_go_eq gunzip entries []
  revert hi hj hfile hlink
  rw [hout]
  intro hi hj hfile hlink
  by_contra hij
  push_neg at hij
  -- j ≤ i; derive a contradiction from where i and j land in the append
  rcases lt_or_ge j (mainEntries gunzip entries).length with hlt | hge
  · -- j indexes the main part, which has no hardlinks
    have hmem : (mainEntries gunzip entries ++ hardlinkEntries entries).get ⟨j, hj⟩ ∈
        mainEntries gunzip entries := by
      rw [List.get_eq_getElem, List.getElem_append_left hlt]
      exact List.getElem_mem _
    have hfalse := mainEntries_not_hardlink gunzip entries _ hmem
    rw [hlink] at hfalse
    cases hfalse
  · -- then i ≥ main length as well, so i indexes the hardlink part
    have hgei : (mainEntries gunzip entries).length ≤ i := le_trans hge hij
    have hmem : (mainEntries gunzip entries ++ hardlinkEntries entries).get ⟨i, hi⟩ ∈
        hardlinkEntries entries := by
      rw [List.get_eq_getElem, List.getElem_append_right hgei]
      exact List.getElem_mem _
    have htrue := hardlinkEntries_hardlink entries _ hmem
    have hfile2 : ((mainEntries gunzip entries ++ hardlinkEntries entries).get ⟨i, hi⟩).isHardlink = false := by
      cases hx : (mainEntries gunzip entries ++ hardlinkEntries entries).get ⟨i, hi⟩ with
      | file p c => rfl
      | hardlink s t => rw [hx] at hfile; exact absurd hfile (by simp [ManContent.isFile])
      | symlink s t => rfl
    rw [htrue] at hfile2
    cases hfile2

/-- Witness for C7 at a concrete archive: entry 0 is a file, entry 2 a
hardlink, and the theorem yields 0 < 2. -/
theorem C7_witness :
    ((get_man_contents id entriesC7).get ⟨0, by decide⟩).isFile = true ∧
    ((get_man_contents id entriesC7).get ⟨2, by decide⟩).isHardlink = true ∧
    (0 : Nat) < 2 :=
  ⟨by decide, by decide,
    C7_hardlinks_after_files id entriesC7 0 2 (by decide) (by decide) (by decide) (by decide)⟩

theorem splitOnChar_ne_nil (sep : Char) (s : Str) : splitOnChar sep s ≠ [] := by
  cases s with
  | nil => simp [splitOnChar]
  | cons c rest =>
      simp only [splitOnChar]
      cases h : splitOnChar sep rest with
      | nil => simp
      | cons part parts =>
          by_cases hc : c = sep <;> simp [hc]

theorem splitOnChar_length_one_iff (sep : Char) (s : Str) :
    (splitOnChar sep s).length = 1 ↔ sep ∉ s := by
  induction s with
  | nil => simp [splitOnChar]
  | cons c rest ih =>
      simp only [splitOnChar]
      cases h : splitOnChar sep rest with
      | nil => exact absurd h (splitOnChar_ne_nil sep rest)
      | cons part parts =>
          by_cases hc : c = sep
          · subst hc
            simp [List.mem_cons]
          · rw [h] at ih
            simp only [hc, if_false, List.length_cons, List.mem_cons] at ih ⊢
            constructor
            · intro hlen
              push_neg
              exact ⟨fun he => hc he.symm, ih.mp hlen⟩
            · intro hmem
              push_neg at hmem
              exact ih.mpr hmem.2

theorem strLtB_asymm : ∀ a b : Str, strLtB a b = true → strLtB b a = false
  | [], [] => by simp [strLtB]
  | [], _ :: _ => by simp [strLtB]
  | _ :: _, [] => by simp [strLtB]
  | a :: as, b :: bs => by
      simp only [strLtB, Bool.or_eq_true, decide_eq_true_eq, Bool.and_eq_true,
        Bool.or_eq_false_iff, decide_eq_false_iff_not, Bool.and_eq_false_iff]
      rintro (hab | ⟨hab, hr⟩)
      · exact ⟨lt_asymm hab, Or.inl (by simp [ne_of_gt hab])⟩
      · rw [hab] at *
        exact ⟨lt_irrefl b, Or.inr (strLtB_asymm as bs hr)⟩

theorem strLtB_trans : ∀ a b c : Str, strLtB a b = true → strLtB b c = true →
    strLtB a c = true
  | _, _, [] => by simp [strLtB]
  | [], b, c :: cs => by simp [strLtB]
  | a :: as, [], c :: cs => by simp [strLtB]
  | a :: as, b :: bs, c :: cs => by
      simp only [strLtB, Bool.or_eq_true, decide_eq_true_eq, Bool.and_eq_true]
      rintro (hab | ⟨hab, hr⟩) (hbc | ⟨hbc, hs⟩)
      · exact Or.inl (lt_trans hab hbc)
      · rw [← hbc]; exact Or.inl hab
      · rw [hab]; exact Or.inl hbc
      · rw [hab, hbc]
        exact Or.inr ⟨rfl, strLtB_trans as bs cs hr hs⟩

theorem strLtB_conn : ∀ a b : Str, strLtB a b = false → strLtB b a = false → a = b
  | [], [] => by simp
  | [], _ :: _ => by simp [strLtB]
  | _ :: _, [] => by simp [strLtB]
  | a :: as, b :: bs => by
      simp only [strLtB, Bool.or_eq_false_iff, decide_eq_false_iff_not,
        Bool.and_eq_false_iff, List.cons.injEq]
      rintro ⟨hab, hr⟩ ⟨hba, hs⟩
      have heq : a = b := le_antisymm (not_lt.mp hba) (not_lt.mp hab)
      refine ⟨heq, ?_⟩
      rcases hr with h | h
      · exact absurd heq (by simpa using h)
      · rcases hs with h2 | h2
        · exact absurd heq.symm (by simpa using h2)
        · exact strLtB_conn as bs h h2

theorem keyLt_asymm (k1 k2 : Nat × Str) (h : keyLt k1 k2 = true) : keyLt k2 k1 = false := by
  cases k1 with
  | mk n1 s1 =>
      cases k2 with
      | mk n2 s2 =>
          simp only [keyLt, Bool.or_eq_true, decide_eq_true_eq, Bool.and_eq_true,
            Bool.or_eq_false_iff, decide_eq_false_iff_not, Bool.and_eq_false_iff] at h ⊢
          rcases h with h | ⟨hn, hs⟩
          · exact ⟨by omega, Or.inl (by omega)⟩
          · rw [hn] at *
            exact ⟨by omega, Or.inr (strLtB_asymm s1 s2 hs)⟩

theorem keyLt_trans (k1 k2 k3 : Nat × Str) (h1 : keyLt k1 k2 = true)
    (h2 : keyLt k2 k3 = true) : keyLt k1 k3 = true := by
  cases k1 with
  | mk n1 s1 =>
  cases k2 with
  | mk n2 s2 =>
  cases k3 with
  | mk n3 s3 =>
      simp only [keyLt, Bool.or_eq_true, decide_eq_true_eq, Bool.and_eq_true] at h1 h2 ⊢
      rcases h1 with h1 | ⟨h1n, h1s⟩ <;> rcases h2 with h2 | ⟨h2n, h2s⟩
      · exact Or.inl (by omega)
      · exact Or.inl (by omega)
      · exact Or.inl (by omega)
      · rw [h1n, h2n]
        exact Or.inr ⟨rfl, strLtB_trans s1 s2 s3 h1s h2s⟩

theorem keyLt_conn (k1 k2 : Nat × Str) (h1 : keyLt k1 k2 = false)
    (h2 : keyLt k2 k1 = false) : k1 = k2 := by
  cases k1 with
  | mk n1 s1 =>
  cases k2 with
  | mk n2 s2 =>
      simp only [keyLt, Bool.or_eq_false_iff, decide_eq_false_iff_not,
        Bool.and_eq_false_iff, Prod.mk.injEq] at h1 h2 ⊢
      rcases h1 with ⟨h1n, h1s⟩
      rcases h2 with ⟨h2n, h2s⟩
      have hn : n1 = n2 := by omega
      refine ⟨hn, ?_⟩
      rcases h1s with h | h
      · exact absurd hn (by simpa using h)
      · rcases h2s with h2 | h2
        · exact absurd hn.symm (by simpa using h2)
        · exact strLtB_conn s1 s2 h h2

theorem keyLt_irrefl (k : Nat × Str) : keyLt k k = false := by
  cases h : keyLt k k with
  | false => rfl
  | true =>
      have h2 := keyLt_asymm k k h
      rw [h] at h2
      cases h2

theorem keyLt_negtrans (a b c : Nat × Str) (h1 : keyLt a b = false)
    (h2 : keyLt b c = false) : keyLt a c = false := by
  cases h : keyLt a c with
  | false => rfl
  | true =>
      exfalso
      cases hba : keyLt b a with
      | true =>
          have := keyLt_trans b a c hba h
          rw [this] at h2
          cases h2
      | false =>
          have heq := keyLt_conn a b h1 hba
          rw [heq] at h
          rw [h] at h2
          cases h2

theorem sortKeyLt_true_iff (vercmp : Str → Str → Int) (x y : SortKey) :
    sortKeyLt vercmp x y = true ↔
      (keyLt x.sec y.sec = true ∨
        (x.sec = y.sec ∧ (keyLt x.repo y.repo = true ∨
          (x.repo = y.repo ∧ vercmp y.ver x.ver < 0)))) := by
  simp [sortKeyLt]

theorem sortKeyLt_false_iff (vercmp : Str → Str → Int) (x y : SortKey) :
    sortKeyLt vercmp x y = false ↔
      (keyLt x.sec y.sec = false ∧
        (x.sec = y.sec → keyLt x.repo y.repo = false ∧
          (x.repo = y.repo → ¬ vercmp y.ver x.ver < 0))) := by
  cases h : sortKeyLt vercmp x y with
  | true =>
      rw [sortKeyLt_true_iff] at h
      simp only [Bool.true_eq_false, false_iff]
      intro hc
      rcases h with hsec | ⟨hsec, h⟩
      · rw [hc.1] at hsec; cases hsec
      · rcases h with hrepo | ⟨hrepo, hver⟩
        · rw [(hc.2 hsec).1] at hrepo; cases hrepo
        · exact (hc.2 hsec).2 hrepo hver
  | false =>
      simp only [true_iff]
      have h2 : ¬ sortKeyLt vercmp x y = true := by rw [h]; simp
      rw [sortKeyLt_true_iff] at h2
      push_neg at h2
      constructor
      · cases hk : keyLt x.sec y.sec with
        | false => rfl
        | true => exact absurd hk h2.1
      · intro hsec
        have h3 := h2.2 hsec
        constructor
        · cases hk : keyLt x.repo y.repo with
          | false => rfl
          | true => exact absurd hk h3.1
        · intro hrepo
          have h4 := h3.2 hrepo
          omega

theorem sortKeyLt_asymm (vercmp : Str → Str → Int)
    (hanti : ∀ a b, vercmp a b < 0 ↔ 0 < vercmp b a) (x y : SortKey)
    (h : sortKeyLt vercmp x y = true) : sortKeyLt vercmp y x = false := by
  rw [sortKeyLt_true_iff] at h
  rw [sortKeyLt_false_iff]
  rcases h with hsec | ⟨hsec, h⟩
  · refine ⟨keyLt_asymm _ _ hsec, ?_⟩
    intro he
    rw [he] at hsec
    rw [keyLt_irrefl] at hsec
    cases hsec
  · refine ⟨by rw [← hsec, keyLt_irrefl], ?_⟩
    intro _
    rcases h with hrepo | ⟨hrepo, hver⟩
    · refine ⟨keyLt_asymm _ _ hrepo, ?_⟩
      intro he
      rw [he] at hrepo
      rw [keyLt_irrefl] at hrepo
      cases hrepo
    · refine ⟨by rw [← hrepo, keyLt_irrefl], ?_⟩
      intro _ h2
      have h3 := (hanti _ _).mp h2
      omega

theorem sortKeyLt_negtrans (vercmp : Str → Str → Int)
    (hanti : ∀ a b, vercmp a b < 0 ↔ 0 < vercmp b a)
    (htrans : ∀ a b c, vercmp a b ≤ 0 → vercmp b c ≤ 0 → vercmp a c ≤ 0)
    (x y z : SortKey) (h1 : sortKeyLt vercmp y x = false)
    (h2 : sortKeyLt vercmp z y = false) : sortKeyLt vercmp z x = false := by
  rw [sortKeyLt_false_iff] at h1 h2 ⊢
  obtain ⟨h1s, h1r⟩ := h1
  obtain ⟨h2s, h2r⟩ := h2
  refine ⟨keyLt_negtrans _ _ _ h2s h1s, ?_⟩
  intro hsec
  -- z.sec = x.sec forces all three section keys equal
  have hyx : y.sec = x.sec := by
    apply keyLt_conn
    · exact h1s
    · rw [← hsec]; exact h2s
  have hzy : z.sec = y.sec := by rw [hyx]; exact hsec
  obtain ⟨h1r1, h1r2⟩ := h1r hyx
  obtain ⟨h2r1, h2r2⟩ := h2r hzy
  refine ⟨keyLt_negtrans _ _ _ h2r1 h1r1, ?_⟩
  intro hrepo
  have hyrx : y.repo = x.repo := by
    apply keyLt_conn
    · exact h1r1
    · rw [← hrepo]; exact h2r1
  have hzry : z.repo = y.repo := by rw [hyrx]; exact hrepo
  have hv1 := h1r2 hyrx
  have hv2 := h2r2 hzry
  -- translate via antisymmetry and chain via transitivity
  have hv1le : vercmp y.ver x.ver ≤ 0 := by
    by_contra hgt
    push_neg at hgt
    exact hv1 ((hanti _ _).mpr hgt)
  have hv2le : vercmp z.ver y.ver ≤ 0 := by
    by_contra hgt
    push_neg at hgt
    exact hv2 ((hanti _ _).mpr hgt)
  have hle := htrans _ _ _ hv2le hv1le
  intro hlt
  have := (hanti _ _).mp hlt
  omega

/-! ### C2: the three-level best-match ranking -/

/-- C2: when several stored pages satisfy one query, `_get_best_match`
returns the first element of the stable sort under the three-level
lexicographic key — section rank (with the fixed priority order, so that
`1` ranks before `8` before `6`; sections whose first character is listed
rank in that character's group by the lexical order of the remainder, after
the listed sections; all others last, lexically), then repository rank
(core, extra, community, multilib before others), then package version
descending under `vercmp`.  Stated for any `vercmp` that is
sign-antisymmetric and transitive (as a version comparator is):

1. a non-empty queryset always has a best match;
2. the best match is a member of the queryset whose sort key is minimal:
   no other candidate's key is strictly smaller;
3. the section priority ranks `1` before `8` before `6`;
4. in particular, when two candidates tie on section and version but live
   in `core` and `extra`, the `core` one is chosen, whichever order the
   queryset lists them in. -/
theorem C2_best_match_three_level_sort {α : Type} (vercmp : Str → Str → Int)
    (secOf repoOf verOf : α → Str)
    (hanti : ∀ a b, vercmp a b < 0 ↔ 0 < vercmp b a)
    (htrans : ∀ a b c, vercmp a b ≤ 0 → vercmp b c ≤ 0 → vercmp a c ≤ 0) :
    (∀ queryset : List α, queryset ≠ [] →
      ∃ m, _get_best_match vercmp secOf repoOf verOf queryset = some m) ∧
    (∀ (queryset : List α) m,
      _get_best_match vercmp secOf repoOf verOf queryset = some m →
      m ∈ queryset ∧
        ∀ m2 ∈ queryset,
          sortKeyLt vercmp (sort_key secOf repoOf verOf m2)
            (sort_key secOf repoOf verOf m) = false) ∧
    (keyLt (_get_section_key (str "1")) (_get_section_key (str "8")) = true ∧
     keyLt (_get_section_key (str "8")) (_get_section_key (str "6")) = true) ∧
    (∀ m1 m2 : α, secOf m1 = secOf m2 → verOf m1 = verOf m2 →
      repoOf m1 = str "core" → repoOf m2 = str "extra" →
      _get_best_match vercmp secOf repoOf verOf [m2, m1] = some m1 ∧
      _get_best_match vercmp secOf repoOf verOf [m1, m2] = some m1) := by
  have hirr : ∀ k, sortKeyLt vercmp k k = false := by
    intro k
    cases h : sortKeyLt vercmp k k with
    | false => rfl
    | true =>
        have h2 := sortKeyLt_asymm vercmp hanti k k h
        rw [h] at h2
        cases h2
  haveI htotal : IsTotal α (rowLe vercmp secOf repoOf verOf) := by
    constructor
    intro a b
    cases h : sortKeyLt vercmp (sort_key secOf repoOf verOf b)
        (sort_key secOf repoOf verOf a) with
    | false => exact Or.inl h
    | true => exact Or.inr (sortKeyLt_asymm vercmp hanti _ _ h)
  haveI htr : IsTrans α (rowLe vercmp secOf repoOf verOf) := by
    constructor
    intro a b c h1 h2
    exact sortKeyLt_negtrans vercmp hanti htrans _ _ _ h1 h2
  refine ⟨?_, ?_, ⟨by decide, by decide⟩, ?_⟩
  · intro queryset hne
    unfold _get_best_match
    cases hsort : List.insertionSort (rowLe vercmp secOf repoOf verOf) queryset with
    | nil =>
        exfalso
        have hperm := List.perm_insertionSort (rowLe vercmp secOf repoOf verOf) queryset
        rw [hsort] at hperm
        exact hne (hperm.nil_eq).symm
    | cons hd tl => exact ⟨hd, rfl⟩
  · intro queryset m hm
    have hsorted := List.sorted_insertionSort (rowLe vercmp secOf repoOf verOf) queryset
    have hperm := List.perm_insertionSort (rowLe vercmp secOf repoOf verOf) queryset
    unfold _get_best_match at hm
    cases hsort : List.insertionSort (rowLe vercmp secOf repoOf verOf) queryset with
    | nil => rw [hsort] at hm; cases hm
    | cons hd tl =>
        rw [hsort] at hm hsorted hperm
        have hhd : hd = m := by simpa using hm
        subst hhd
        constructor
        · exact hperm.mem_iff.mp (List.mem_cons_self hd tl)
        · intro m2 hm2
          have hm2s : m2 ∈ hd :: tl := hperm.mem_iff.mpr hm2
          rcases List.mem_cons.mp hm2s with he | ht
          · subst he; exact hirr _
          · exact List.rel_of_sorted_cons hsorted m2 ht
  · intro m1 m2 hsec hver hrepo1 hrepo2
    have hlt : sortKeyLt vercmp (sort_key secOf repoOf verOf m1)
        (sort_key secOf repoOf verOf m2) = true := by
      rw [sortKeyLt_true_iff]
      refine Or.inr ⟨?_, Or.inl ?_⟩
      · simp [sort_key, hsec]
      · simp only [sort_key, hrepo1, hrepo2]
        decide
    have hlt2 := sortKeyLt_asymm vercmp hanti _ _ hlt
    have hcond : ¬ rowLe vercmp secOf repoOf verOf m2 m1 := by
      unfold rowLe
      rw [hlt]
      simp
    have hcond2 : rowLe vercmp secOf repoOf verOf m1 m2 := hlt2
    constructor
    · simp [_get_best_match, List.insertionSort, List.orderedInsert, hcond]
    · simp [_get_best_match, List.insertionSort, List.orderedInsert, hcond2]

theorem vercmpEq_anti : ∀ a b, vercmpEq a b < 0 ↔ 0 < vercmpEq b a := by
  intro a b
  unfold vercmpEq
  by_cases hab : a = b
  · simp [hab]
  · have hba : ¬ b = a := fun h => hab h.symm
    by_cases hl : strLtB a b = true
    · simp [hab, hba, hl, strLtB_asymm a b hl]
    · have hl2 : strLtB b a = true := by
        cases h2 : strLtB b a with
        | true => rfl
        | false => exact absurd (strLtB_conn a b (by simpa using hl) h2) hab
      simp only [hab, hba, if_false, hl2, if_true,
        Bool.not_eq_true] at *
      rw [(by simpa using hl : strLtB a b = false)]
      simp

theorem vercmpEq_trans : ∀ a b c, vercmpEq a b ≤ 0 → vercmpEq b c ≤ 0 →
    vercmpEq a c ≤ 0 := by
  intro a b c hab hbc
  unfold vercmpEq at *
  by_cases h1 : a = b
  · subst h1
    exact hbc
  · by_cases h2 : b = c
    · subst h2
      exact hab
    · simp only [h1, if_false] at hab
      simp only [h2, if_false] at hbc
      by_cases h3 : a = c
      · simp [h3]
      · simp only [h3, if_false]
        have hl1 : strLtB a b = true := by
          by_contra hn
          simp only [Bool.not_eq_true] at hn
          rw [hn] at hab
          simp at hab
        have hl2 : strLtB b c = true := by
          by_contra hn
          simp only [Bool.not_eq_true] at hn
          rw [hn] at hbc
          simp at hbc
        rw [strLtB_trans a b c hl1 hl2]
        simp

/-- Witness for C2 at concrete data: two copies of `foo.1` with equal
versions in repos `core` and `extra`, listed extra-first; the best match is
the `core` row (`vercmpEq` is sign-antisymmetric and transitive). -/
theorem C2_witness :
    _get_best_match vercmpEq (fun mp : ManPage × Package => mp.1.«section»)
      (fun mp => mp.2.repo) (fun mp => mp.2.version)
      [(pageC6, ⟨2, str "extra", str "pkgB", str "1.0-1", str "x86_64", str "d", none, 0, []⟩),
       (pageC6, ⟨1, str "core", str "pkgA", str "1.0-1", str "x86_64", str "d", none, 0, []⟩)] =
      some (pageC6, ⟨1, str "core", str "pkgA", str "1.0-1", str "x86_64", str "d", none, 0, []⟩) :=
  ((C2_best_match_three_level_sort vercmpEq (fun mp : ManPage × Package => mp.1.«section»)
      (fun mp => mp.2.repo) (fun mp => mp.2.version) vercmpEq_anti vercmpEq_trans).2.2.2
    (pageC6, ⟨1, str "core", str "pkgA", str "1.0-1", str "x86_64", str "d", none, 0, []⟩)
    (pageC6, ⟨2, str "extra", str "pkgB", str "1.0-1", str "x86_64", str "d", none, 0, []⟩)
    rfl rfl rfl rfl).1

/-- C1: the name resolver parses the snippet right-to-left greedily (shown
here without a language override, as the claim states it):

1. a snippet with no dot is returned as a bare name, section and language
   unset;
2. otherwise, when a page (or symlink source) exists whose name is the
   snippet minus the last dot-segment and whose section starts with the
   last segment, the resolver returns (name, last, no language) — the
   section binds before a language;
3. with three or more segments, when no such section match exists and the
   last segment is a known language, (name minus two segments,
   second-to-last segment, language) is tried first,
4. then (name minus one segment, no section, language),
5. and if both fail the whole snippet is the name;
6. likewise when the last segment is not a known language. -/
theorem C1_parse_right_to_left_greedy (db : Database) (s : Str) :
    (('.' ∉ s) → _parse_man_name_section_lang db s = (s, none, none)) ∧
    ('.' ∈ s →
      _exists_name_section db (joinWith (str ".") (splitOnChar '.' s).dropLast)
        ((splitOnChar '.' s).getLastD []) = true →
      _parse_man_name_section_lang db s =
        (joinWith (str ".") (splitOnChar '.' s).dropLast,
         some ((splitOnChar '.' s).getLastD []), none)) ∧
    (3 ≤ (splitOnChar '.' s).length →
      _exists_name_section db (joinWith (str ".") (splitOnChar '.' s).dropLast)
        ((splitOnChar '.' s).getLastD []) = false →
      _exists_language db ((splitOnChar '.' s).getLastD []) = true →
      _exists_name_section_language db
        (joinWith (str ".") (splitOnChar '.' s).dropLast.dropLast)
        ((splitOnChar '.' s).dropLast.getLastD [])
        ((splitOnChar '.' s).getLastD []) = true →
      _parse_man_name_section_lang db s =
        (joinWith (str ".") (splitOnChar '.' s).dropLast.dropLast,
         some ((splitOnChar '.' s).dropLast.getLastD []),
         some ((splitOnChar '.' s).getLastD []))) ∧
    (3 ≤ (splitOnChar '.' s).length →
      _exists_name_section db (joinWith (str ".") (splitOnChar '.' s).dropLast)
        ((splitOnChar '.' s).getLastD []) = false →
      _exists_language db ((splitOnChar '.' s).getLastD []) = true →
      _exists_name_section_language db
        (joinWith (str ".") (splitOnChar '.' s).dropLast.dropLast)
        ((splitOnChar '.' s).dropLast.getLastD [])
        ((splitOnChar '.' s).getLastD []) = false →
      _exists_name_language db (joinWith (str ".") (splitOnChar '.' s).dropLast)
        ((splitOnChar '.' s).getLastD []) = true →
      _parse_man_name_section_lang db s =
        (joinWith (str ".") (splitOnChar '.' s).dropLast, none,
         some ((splitOnChar '.' s).getLastD []))) ∧
    (3 ≤ (splitOnChar '.' s).length →
      _exists_name_section db (joinWith (str ".") (splitOnChar '.' s).dropLast)
        ((splitOnChar '.' s).getLastD []) = false →
      _exists_language db ((splitOnChar '.' s).getLastD []) = true →
      _exists_name_section_language db
        (joinWith (str ".") (splitOnChar '.' s).dropLast.dropLast)
        ((splitOnChar '.' s).dropLast.getLastD [])
        ((splitOnChar '.' s).getLastD []) = false →
      _exists_name_language db (joinWith (str ".") (splitOnChar '.' s).dropLast)
        ((splitOnChar '.' s).getLastD []) = false →
      _parse_man_name_section_lang db s = (s, none, none)) ∧
    (3 ≤ (splitOnChar '.' s).length →
      _exists_name_section db (joinWith (str ".") (splitOnChar '.' s).dropLast)
        ((splitOnChar '.' s).getLastD []) = false →
      _exists_language db ((splitOnChar '.' s).getLastD []) = false →
      _parse_man_name_section_lang db s = (s, none, none)) := by
  have hlen1 : (splitOnChar '.' s).length = 1 ↔ '.' ∉ s :=
    splitOnChar_length_one_iff '.' s
  refine ⟨?_, ?_, ?_, ?_, ?_, ?_⟩
  · intro hdot
    simp [_parse_man_name_section_lang, hlen1.mpr hdot]
  · intro hdot hens
    have hne1 : ¬ (splitOnChar '.' s).length = 1 := fun h => (hlen1.mp h) hdot
    simp only [List.getLastD_eq_getLast?] at hens
    simp [_parse_man_name_section_lang, hne1, hens]
  · intro h3 hens hel hensl
    have hne1 : ¬ (splitOnChar '.' s).length = 1 := by omega
    have hne2 : ¬ (splitOnChar '.' s).length = 2 := by omega
    simp only [List.getLastD_eq_getLast?] at hens hel hensl
    simp [_parse_man_name_section_lang, hne1, hne2, hens, hel, hensl, pyOr]
  · intro h3 hens hel hensl henl
    have hne1 : ¬ (splitOnChar '.' s).length = 1 := by omega
    have hne2 : ¬ (splitOnChar '.' s).length = 2 := by omega
    simp only [List.getLastD_eq_getLast?] at hens hel hensl henl
    simp [_parse_man_name_section_lang, hne1, hne2, hens, hel, hensl, henl, pyOr]
  · intro h3 hens hel hensl henl
    have hne1 : ¬ (splitOnChar '.' s).length = 1 := by omega
    have hne2 : ¬ (splitOnChar '.' s).length = 2 := by omega
    simp only [List.getLastD_eq_getLast?] at hens hel hensl henl
    simp [_parse_man_name_section_lang, hne1, hne2, hens, hel, hensl, henl, pyOr]
  · intro h3 hens hel
    have hne1 : ¬ (splitOnChar '.' s).length = 1 := by omega
    have hne2 : ¬ (splitOnChar '.' s).length = 2 := by omega
    simp only [List.getLastD_eq_getLast?] at hens hel
    simp [_parse_man_name_section_lang, hne1, hne2, hens, hel]

/-- Witness for C1: on a database holding `target(1)`, the section branch
of the parser resolves the snippet `target.1` to (`target`, `1`, no
language). -/
theorem C1_witness :
    ('.' ∈ str "target.1") ∧
    _exists_name_section dbC6 (str "target") (str "1") = true ∧
    _parse_man_name_section_lang dbC6 (str "target.1") = (str "target", some (str "1"), none) :=
  ⟨by decide, by decide,
    (C1_parse_right_to_left_greedy dbC6 (str "target.1")).2.1 (by decide) (by decide)⟩

/-! ### C6: `resolve_so_link` is idempotent -/

/-- C6: once `converted_content_id` is set, `resolve_so_link` performs no
update (the page is returned unchanged); and calling it twice leaves the
same `converted_content` pointer as calling it once: a successful call's
result is a fixed point. -/
theorem C6_resolve_so_link_idempotent (db : Database) (page page2 : ManPage) :
    (∀ c, page.converted_content_id = some c → resolve_so_link db page = .ok page) ∧
    (resolve_so_link db page = .ok page2 → resolve_so_link db page2 = .ok page2) := by
  constructor
  · intro c hc
    simp [resolve_so_link, hc]
  · intro h
    cases hc : page.converted_content_id with
    | some c =>
        simp [resolve_so_link, hc] at h
        subst h
        simp [resolve_so_link, hc]
    | none =>
        simp only [resolve_so_link, hc] at h
        cases ht : resolve_so_target db page with
        | error e => rw [ht] at h; cases h
        | ok cid =>
            rw [ht] at h
            cases h
            simp [resolve_so_link]

/-- Witness for C6: on the sample alias page the first call sets the
pointer to the target's content and a second call is a no-op. -/
theorem C6_witness :
    resolve_so_link dbC6 pageC6b =
      .ok { pageC6b with converted_content_id := some 1 } ∧
    resolve_so_link dbC6 { pageC6b with converted_content_id := some 1 } =
      .ok { pageC6b with converted_content_id := some 1 } :=
  ⟨by rfl,
    (C6_resolve_so_link_idempotent dbC6 pageC6b
      { pageC6b with converted_content_id := some 1 }).2 (by rfl)⟩

/-! ### C4: the path classifier and embedded encoding hints -/

/-- C4 counterexample: on the exact path named by the claim,
`usr/share/man/man1/evim.1.ru.KOI8-R.gz`, the classifier does not return
name `evim`, section `1`, lang `ru` with hint `KOI8-R`; it splits the file
name at its last dot, yielding name `evim.1.ru`, section `KOI8-R`, language
`en` (from the `man1` directory) and no hint. -/
theorem C4_counterexample :
    classify (str "usr/share/man/man1/evim.1.ru.KOI8-R.gz") =
      some (str "evim.1.ru", str "KOI8-R", str "en", none) ∧
    classify (str "usr/share/man/man1/evim.1.ru.KOI8-R.gz") ≠
      some (str "evim", str "1", str "ru", some (str "KOI8-R")) := by
  constructor
  · decide
  · decide

/-- C4 (amended): the encoding hint is carried by the language *directory*
(e.g. `usr/share/man/ru.KOI8-R/man1/evim.1.gz`), and the classifier splits
it off the language value and returns it separately rather than folding it
in: classifying that path yields name `evim`, section `1`, lang `ru`, hint
`KOI8-R`; in general the returned language is the part of the parsed
language value before its first dot (hence dot-free) and the hint is the
remainder. -/
theorem C4_classify_splits_encoding_hint :
    (classify (str "usr/share/man/ru.KOI8-R/man1/evim.1.gz") =
      some (str "evim", str "1", str "ru", some (str "KOI8-R"))) ∧
    (∀ path name sec lang, parse_man_path (stripGz path) = some (name, sec, lang) →
      classify path =
        some (name, sec, (splitEncodingHint lang).1, (splitEncodingHint lang).2)) ∧
    (∀ lang, '.' ∉ (splitEncodingHint lang).1) := by
  refine ⟨by decide, ?_, ?_⟩
  · intro path name sec lang h
    simp only [classify, h, splitEncodingHint]
    split
    · rfl
    · rfl
  · intro lang
    simp only [splitEncodingHint]
    split
    · exact splitFirst_fst_not_mem '.' lang
    · next hc => simpa using hc

/-- Witness for C4 (amended), applying the general part at the scenario
path. -/
theorem C4_witness :
    parse_man_path (stripGz (str "usr/share/man/ru.KOI8-R/man1/evim.1.gz")) =
      some (str "evim", str "1", str "ru.KOI8-R") ∧
    classify (str "usr/share/man/ru.KOI8-R/man1/evim.1.gz") =
      some (str "evim", str "1",
        (splitEncodingHint (str "ru.KOI8-R")).1, (splitEncodingHint (str "ru.KOI8-R")).2) :=
  ⟨by decide,
    C4_classify_splits_encoding_hint.2.1 (str "usr/share/man/ru.KOI8-R/man1/evim.1.gz")
      (str "evim") (str "1") (str "ru.KOI8-R") (by decide)⟩

/-! ### C3: volatile package fields and the version comparison -/

/-- C3 counterexample: a package observed in the mirror with an unchanged
version (`vercmpEq` returns 0 on the identical version strings, as
`pyalpm.vercmp` does) and no force flag is skipped entirely by
`update_packages`' loop body — its stored description is not refreshed to
the mirror's differing value, contradicting the claim that volatile fields
are refreshed on every observed package regardless of the version
comparison. -/
theorem C3_counterexample :
    update_packages_step vercmpEq [pkgRowC3] (str "core") alpmC3 false 2 =
      ([pkgRowC3], false) ∧
    pkgRowC3.description ≠ alpmC3.desc := by
  constructor
  · decide
  · decide

/-- C3 (amended): the volatile descriptive fields (description, URL, build
date, licenses — and the version itself) are refreshed exactly for the
packages marked updated: those with no stored row, a strictly newer mirror
version (`vercmp = -1`), or the force flag.  A stored package whose version
is not older, with no force flag, is skipped entirely and keeps all its
stored fields. -/
theorem C3_volatile_fields_refreshed_only_when_updated
    (vercmp : Str → Str → Int) (packages : List Package) (repo : Str)
    (pkg : AlpmPackage) (force : Bool) (next_id : Nat) :
    (∀ db_package, findPackage packages repo pkg.name = some db_package →
      vercmp db_package.version pkg.version ≠ -1 → force = false →
      update_packages_step vercmp packages repo pkg force next_id = (packages, false)) ∧
    (∀ db_package, findPackage packages repo pkg.name = some db_package →
      (vercmp db_package.version pkg.version = -1 ∨ force = true) →
      update_packages_step vercmp packages repo pkg force next_id =
        (savePackage packages
          { db_package with
            version := pkg.version
            description := pkg.desc
            url := pkg.url
            build_date := pkg.builddate
            licenses := pkg.licenses }, true)) ∧
    (findPackage packages repo pkg.name = none →
      update_packages_step vercmp packages repo pkg force next_id =
        (savePackage packages
          { id := next_id
            repo := repo
            name := pkg.name
            arch := pkg.arch
            version := pkg.version
            description := pkg.desc
            url := pkg.url
            build_date := pkg.builddate
            licenses := pkg.licenses }, true)) := by
  refine ⟨?_, ?_, ?_⟩
  · intro db_package hfind hv hf
    subst hf
    simp [update_packages_step, hfind, hv]
  · intro db_package hfind hor
    rcases hor with hv | hf
    · simp [update_packages_step, hfind, hv]
    · subst hf
      simp [update_packages_step, hfind]
  · intro hfind
    simp [update_packages_step, hfind]

/-- Witness for C3 (amended): the skip case at the concrete counterexample
data. -/
theorem C3_witness :
    findPackage [pkgRowC3] (str "core") alpmC3.name = some pkgRowC3 ∧
    vercmpEq pkgRowC3.version alpmC3.version ≠ -1 ∧
    update_packages_step vercmpEq [pkgRowC3] (str "core") alpmC3 false 2 =
      ([pkgRowC3], false) :=
  ⟨by decide, by decide,
    (C3_volatile_fields_refreshed_only_when_updated vercmpEq [pkgRowC3] (str "core")
      alpmC3 false 2).1 pkgRowC3 (by decide) (by decide) rfl⟩

/-! ### Sync-state helper lemmas (used by C8 and C9) -/

theorem saveManPage_mem (l : List ManPage) (row m2 : ManPage)
    (h : m2 ∈ saveManPage l row) : m2 ∈ l ∨ m2 = row := by
  unfold saveManPage at h
  split at h
  · rcases List.mem_map.mp h with ⟨m, hm, he⟩
    by_cases hid : m.id = row.id
    · rw [hid] at he
      simp at he
      exact Or.inr he.symm
    · simp [hid] at he
      exact Or.inl (he ▸ hm)
  · rcases List.mem_append.mp h with h2 | h2
    · exact Or.inl h2
    · exact Or.inr (List.mem_singleton.mp h2)

theorem saveSymlink_mem (l : List SymbolicLink) (row l2 : SymbolicLink)
    (h : l2 ∈ saveSymlink l row) : l2 ∈ l ∨ l2 = row := by
  unfold saveSymlink at h
  split at h
  · rcases List.mem_map.mp h with ⟨m, hm, he⟩
    by_cases hid : m.id = row.id
    · rw [hid] at he
      simp at he
      exact Or.inr he.symm
    · simp [hid] at he
      exact Or.inl (he ▸ hm)
  · rcases List.mem_append.mp h with h2 | h2
    · exact Or.inl h2
    · exact Or.inr (List.mem_singleton.mp h2)

theorem process_entry_clean (decode : Str → Option Str → Str) (pkgId : Nat)
    (st : SyncState) (keys : List ManKey) (e : ManContent) (st2 : SyncState)
    (keys2 : List ManKey)
    (hm : ∀ m ∈ st.manpages, manPageClean m = true)
    (hs : ∀ l ∈ st.symlinks, symbolicLinkClean l = true)
    (h : process_entry decode pkgId (st, keys) e = .ok (st2, keys2)) :
    (∀ m ∈ st2.manpages, manPageClean m = true) ∧
    (∀ l ∈ st2.symlinks, symbolicLinkClean l = true) := by
  cases e with
  | file path contents =>
      simp only [process_entry] at h
      simp only [process_file] at h
      split at h
      · -- unparseable path: skip
        simp only [Except.ok.injEq, Prod.mk.injEq] at h
        obtain ⟨h1, h2⟩ := h
        subst h1
        exact ⟨hm, hs⟩
      · split at h
        · -- empty content: skip
          simp only [Except.ok.injEq, Prod.mk.injEq] at h
          obtain ⟨h1, h2⟩ := h
          subst h1
          exact ⟨hm, hs⟩
        · split at h
          · -- duplicate key: skip
            simp only [Except.ok.injEq, Prod.mk.injEq] at h
            obtain ⟨h1, h2⟩ := h
            subst h1
            exact ⟨hm, hs⟩
          · split at h
            · -- existing page: only the content blob changes
              split at h
              · simp at h
              · simp only [Except.ok.injEq, Prod.mk.injEq] at h
                obtain ⟨h1, h2⟩ := h
                subst h1
                exact ⟨hm, hs⟩
            · -- new page: guarded by full_clean
              split at h
              · next hclean =>
                  simp only [Except.ok.injEq, Prod.mk.injEq] at h
                  obtain ⟨h1, h2⟩ := h
                  subst h1
                  refine ⟨?_, hs⟩
                  intro m hm2
                  rcases saveManPage_mem _ _ _ hm2 with hin | he
                  · exact hm m hin
                  · rw [he]
                    exact hclean
              · simp at h
  | hardlink source target =>
      simp only [process_entry] at h
      simp only [process_hardlink] at h
      split at h
      · simp only [Except.ok.injEq, Prod.mk.injEq] at h
        obtain ⟨h1, h2⟩ := h
        subst h1
        exact ⟨hm, hs⟩
      · split at h
        · simp only [Except.ok.injEq, Prod.mk.injEq] at h
          obtain ⟨h1, h2⟩ := h
          subst h1
          exact ⟨hm, hs⟩
        · split at h
          · simp only [Except.ok.injEq, Prod.mk.injEq] at h
            obtain ⟨h1, h2⟩ := h
            subst h1
            exact ⟨hm, hs⟩
          · split at h
            · simp only [Except.ok.injEq, Prod.mk.injEq] at h
              obtain ⟨h1, h2⟩ := h
              subst h1
              exact ⟨hm, hs⟩
            · split at h
              · simp at h
              · split at h
                · -- existing source row updated, guarded by full_clean
                  split at h
                  · next hclean =>
                      simp only [Except.ok.injEq, Prod.mk.injEq] at h
                      obtain ⟨h1, h2⟩ := h
                      subst h1
                      refine ⟨?_, hs⟩
                      intro m hm2
                      rcases saveManPage_mem _ _ _ hm2 with hin | he
                      · exact hm m hin
                      · rw [he]
                        exact hclean
                  · simp at h
                · -- new source row, guarded by full_clean
                  split at h
                  · next hclean =>
                      simp only [Except.ok.injEq, Prod.mk.injEq] at h
                      obtain ⟨h1, h2⟩ := h
                      subst h1
                      refine ⟨?_, hs⟩
                      intro m hm2
                      rcases saveManPage_mem _ _ _ hm2 with hin | he
                      · exact hm m hin
                      · rw [he]
                        exact hclean
                  · simp at h
  | symlink source target =>
      simp only [process_entry] at h
      simp only [process_symlink] at h
      split at h
      · simp only [Except.ok.injEq, Prod.mk.injEq] at h
        obtain ⟨h1, h2⟩ := h
        subst h1
        exact ⟨hm, hs⟩
      · split at h
        · simp only [Except.ok.injEq, Prod.mk.injEq] at h
          obtain ⟨h1, h2⟩ := h
          subst h1
          exact ⟨hm, hs⟩
        · split at h
          · simp only [Except.ok.injEq, Prod.mk.injEq] at h
            obtain ⟨h1, h2⟩ := h
            subst h1
            exact ⟨hm, hs⟩
          · split at h
            · simp only [Except.ok.injEq, Prod.mk.injEq] at h
              obtain ⟨h1, h2⟩ := h
              subst h1
              exact ⟨hm, hs⟩
            · -- link upsert, guarded by full_clean
              split at h
              · next hclean =>
                  simp only [Except.ok.injEq, Prod.mk.injEq] at h
                  obtain ⟨h1, h2⟩ := h
                  subst h1
                  refine ⟨hm, ?_⟩
                  intro l hl2
                  rcases saveSymlink_mem _ _ _ hl2 with hin | he
                  · exact hs l hin
                  · rw [he]
                    exact hclean
              · simp at h

theorem process_entries_clean (decode : Str → Option Str → Str) (pkgId : Nat)
    (entries : List ManContent) :
    ∀ (st : SyncState) (keys : List ManKey) (st2 : SyncState) (keys2 : List ManKey),
    (∀ m ∈ st.manpages, manPageClean m = true) →
    (∀ l ∈ st.symlinks, symbolicLinkClean l = true) →
    process_entries decode pkgId (st, keys) entries = .ok (st2, keys2) →
    (∀ m ∈ st2.manpages, manPageClean m = true) ∧
    (∀ l ∈ st2.symlinks, symbolicLinkClean l = true) := by
  induction entries with
  | nil =>
      intro st keys st2 keys2 hm hs h
      simp only [process_entries, Except.ok.injEq, Prod.mk.injEq] at h
      obtain ⟨h1, h2⟩ := h
      subst h1
      exact ⟨hm, hs⟩
  | cons e rest ih =>
      intro st keys st2 keys2 hm hs h
      simp only [process_entries] at h
      split at h
      · simp at h
      · next acc2 heq =>
          obtain ⟨hm2, hs2⟩ := process_entry_clean decode pkgId st keys e acc2.1 acc2.2 hm hs
            (by rw [heq])
          exact ih acc2.1 acc2.2 st2 keys2 hm2 hs2 h

/-! ### C9: validation of persisted rows -/

theorem manPageClean_iff (m : ManPage) :
    manPageClean m = true ↔
      (m.name ≠ [] ∧ m.«section» ≠ [] ∧ '.' ∉ m.«section» ∧ '.' ∉ m.lang) := by
  simp only [manPageClean, Bool.and_eq_true, ne_eq, decide_not,
    Bool.not_eq_true', decide_eq_false_iff_not]
  constructor
  · rintro ⟨⟨⟨h1, h2⟩, h3⟩, h4⟩
    exact ⟨h1, h2, by simpa using h3, by simpa using h4⟩
  · rintro ⟨h1, h2, h3, h4⟩
    exact ⟨⟨⟨h1, h2⟩, by simpa using h3⟩, by simpa using h4⟩

theorem symbolicLinkClean_iff (l : SymbolicLink) :
    symbolicLinkClean l = true ↔
      (¬(l.from_section = l.to_section ∧ l.from_name = l.to_name) ∧ '.' ∉ l.lang) := by
  simp only [symbolicLinkClean, Bool.and_eq_true, Bool.not_eq_true',
    Bool.and_eq_false_iff, decide_eq_false_iff_not]
  constructor
  · rintro ⟨h1, h2⟩
    refine ⟨?_, by simpa using h2⟩
    rintro ⟨ha, hb⟩
    rcases h1 with h | h
    · exact (by simpa using h : ¬ _) ha
    · exact (by simpa using h : ¬ _) hb
  · rintro ⟨h1, h2⟩
    refine ⟨?_, by simpa using h2⟩
    by_cases ha : l.from_section = l.to_section
    · exact Or.inr (by simpa using fun hb => h1 ⟨ha, hb⟩)
    · exact Or.inl (by simpa using ha)

/-- C9: every `ManPage` row present after a per-package sync pass that
started from validated tables has a non-empty name, a non-empty section
and no literal dot in its section or language, and every `SymbolicLink`
row has no dot in its language and does not point to itself — because
`full_clean` guards every save and checks exactly these properties (first
two conjuncts), and every row the pass touches passes it or the pass
aborts (last two conjuncts). -/
theorem C9_persisted_rows_validated (decode : Str → Option Str → Str)
    (st : SyncState) (pkgId : Nat) (files : List Str) (entries : List ManContent)
    (st2 : SyncState)
    (hm : ∀ m ∈ st.manpages, manPageClean m = true)
    (hs : ∀ l ∈ st.symlinks, symbolicLinkClean l = true)
    (hrun : update_package_man_pages decode st pkgId files entries = .ok st2) :
    (∀ m : ManPage, manPageClean m = true ↔
      (m.name ≠ [] ∧ m.«section» ≠ [] ∧ '.' ∉ m.«section» ∧ '.' ∉ m.lang)) ∧
    (∀ l : SymbolicLink, symbolicLinkClean l = true ↔
      (¬(l.from_section = l.to_section ∧ l.from_name = l.to_name) ∧ '.' ∉ l.lang)) ∧
    (∀ m ∈ st2.manpages,
      m.name ≠ [] ∧ m.«section» ≠ [] ∧ '.' ∉ m.«section» ∧ '.' ∉ m.lang) ∧
    (∀ l ∈ st2.symlinks,
      ¬(l.from_section = l.to_section ∧ l.from_name = l.to_name) ∧ '.' ∉ l.lang) := by
  refine ⟨manPageClean_iff, symbolicLinkClean_iff, ?_⟩
  unfold update_package_man_pages at hrun
  split at hrun
  · -- no man files: tables unchanged
    simp only [Except.ok.injEq] at hrun
    subst hrun
    exact ⟨fun m hm2 => (manPageClean_iff m).mp (hm m hm2),
           fun l hl2 => (symbolicLinkClean_iff l).mp (hs l hl2)⟩
  · split at hrun
    · simp at hrun
    · next stq keysq hp =>
        simp only [Except.ok.injEq] at hrun
        subst hrun
        obtain ⟨hm2, hs2⟩ := process_entries_clean decode pkgId entries st [] stq keysq
          hm hs (by rw [hp])
        constructor
        · intro m hm3
          have hmem : m ∈ stq.manpages := by
            have := hm3
            simp only [delete_missing_pages] at this
            exact List.mem_of_mem_filter this
          exact (manPageClean_iff m).mp (hm2 m hmem)
        · intro l hl3
          have hmem : l ∈ stq.symlinks := by
            simpa [delete_missing_pages] using hl3
          exact (symbolicLinkClean_iff l).mp (hs2 l hmem)

/-- Witness for C9: running the pass on the sample state adds `a(1)` and
the theorem certifies the validation properties of every surviving row, in
particular of the new row. -/
theorem C9_witness :
    (str "a" ≠ ([] : Str)) ∧ (str "1" ≠ ([] : Str)) ∧
    '.' ∉ str "1" ∧ '.' ∉ str "en" :=
  (C9_persisted_rows_validated decodeId stC8 1 [str "usr/share/man/man1/a.1.gz"]
      entriesC8 (delete_missing_pages
        ({ stC8 with
            contents := saveContent stC8.contents
              ⟨10, str "hello", none, none, none⟩,
            next_content_id := 11,
            manpages := saveManPage stC8.manpages
              ⟨10, 1, str "a", str "1", str "en", 10, none⟩,
            next_man_id := 11 }) 1 [(str "a", str "1", str "en")])
      (by decide) (by decide) (by rfl)).2.2.1
    ⟨10, 1, str "a", str "1", str "en", 10, none⟩ (by decide)

/-! ### C8: frame lemmas for the per-package reconciliation -/

theorem eq_of_mem_of_id_eq (l : List ManPage) (hnd : (l.map ManPage.id).Nodup)
    (m m2 : ManPage) (hm : m ∈ l) (hm2 : m2 ∈ l) (hid : m.id = m2.id) : m = m2 :=
  List.inj_on_of_nodup_map hnd hm hm2 hid

theorem mem_saveManPage_of_mem (l : List ManPage) (row m : ManPage) (hm : m ∈ l) :
    (if m.id = row.id then row else m) ∈ saveManPage l row := by
  unfold saveManPage
  split
  · exact List.mem_map.mpr ⟨m, hm, rfl⟩
  · next hany =>
      have hne : ¬ m.id = row.id := by
        intro he
        exact hany (List.any_eq_true.mpr ⟨m, hm, by simp [he]⟩)
      simp only [hne, if_false]
      exact List.mem_append.mpr (Or.inl hm)

theorem saveManPage_map_id (l : List ManPage) (row m0 : ManPage) (hm0 : m0 ∈ l)
    (hid : row.id = m0.id) :
    (saveManPage l row).map ManPage.id = l.map ManPage.id := by
  unfold saveManPage
  have hany : l.any (fun p => p.id = row.id) = true :=
    List.any_eq_true.mpr ⟨m0, hm0, by simp [hid]⟩
  simp only [hany, if_true, List.map_map]
  apply List.map_congr_left
  intro m hm
  by_cases he : m.id = row.id
  · simp [Function.comp, he]
  · simp [Function.comp, he]

theorem saveManPage_fresh (l : List ManPage) (row : ManPage)
    (hf : ∀ m ∈ l, m.id ≠ row.id) : saveManPage l row = l ++ [row] := by
  unfold saveManPage
  have hany : l.any (fun p => p.id = row.id) = false := by
    rw [List.any_eq_false]
    intro m hm
    simp [hf m hm]
  simp [hany]

theorem process_entry_rows (decode : Str → Option Str → Str) (pkgId : Nat)
    (st : SyncState) (keys : List ManKey) (e : ManContent) (st2 : SyncState)
    (keys2 : List ManKey) (hids : ManIdsOk st)
    (h : process_entry decode pkgId (st, keys) e = .ok (st2, keys2)) :
    ManIdsOk st2 ∧
    ∀ m ∈ st.manpages, ∃ m2 ∈ st2.manpages,
      m2.package_id = m.package_id ∧ m2.name = m.name ∧
      m2.«section» = m.«section» ∧ m2.lang = m.lang := by
  obtain ⟨hnd, hlt⟩ := hids
  -- the three ways an accepted entry can leave the man-page table
  have hkeep : ∀ (stx : SyncState), stx.manpages = st.manpages →
      stx.next_man_id = st.next_man_id →
      ManIdsOk stx ∧ ∀ m ∈ st.manpages, ∃ m2 ∈ stx.manpages,
        m2.package_id = m.package_id ∧ m2.name = m.name ∧
        m2.«section» = m.«section» ∧ m2.lang = m.lang := by
    intro stx he hn
    refine ⟨⟨by rw [he]; exact hnd, by rw [he, hn]; exact hlt⟩, ?_⟩
    intro m hm
    exact ⟨m, by rw [he]; exact hm, rfl, rfl, rfl, rfl⟩
  have hupdate : ∀ (stx : SyncState) (m0 row : ManPage), m0 ∈ st.manpages →
      row.id = m0.id → row.package_id = m0.package_id → row.name = m0.name →
      row.«section» = m0.«section» → row.lang = m0.lang →
      stx.manpages = saveManPage st.manpages row →
      stx.next_man_id = st.next_man_id →
      ManIdsOk stx ∧ ∀ m ∈ st.manpages, ∃ m2 ∈ stx.manpages,
        m2.package_id = m.package_id ∧ m2.name = m.name ∧
        m2.«section» = m.«section» ∧ m2.lang = m.lang := by
    intro stx m0 row hm0 hid hp hn hsec hl he hnext
    have hmap : stx.manpages.map ManPage.id = st.manpages.map ManPage.id := by
      rw [he]
      exact saveManPage_map_id st.manpages row m0 hm0 hid
    refine ⟨⟨by rw [hmap]; exact hnd, ?_⟩, ?_⟩
    · intro m hm
      have : m.id ∈ stx.manpages.map ManPage.id := List.mem_map.mpr ⟨m, hm, rfl⟩
      rw [hmap] at this
      rcases List.mem_map.mp this with ⟨m3, hm3, he3⟩
      rw [hnext, ← he3]
      exact hlt m3 hm3
    · intro m hm
      refine ⟨if m.id = row.id then row else m, by rw [he]; exact mem_saveManPage_of_mem _ _ _ hm, ?_⟩
      by_cases hcase : m.id = row.id
      · have hmm0 : m = m0 := eq_of_mem_of_id_eq st.manpages hnd m m0 hm hm0 (by rw [hcase, hid])
        subst hmm0
        simp [hcase, hp, hn, hsec, hl]
      · simp [hcase]
  have hnew : ∀ (stx : SyncState) (row : ManPage), row.id = st.next_man_id →
      stx.manpages = saveManPage st.manpages row →
      stx.next_man_id = st.next_man_id + 1 →
      ManIdsOk stx ∧ ∀ m ∈ st.manpages, ∃ m2 ∈ stx.manpages,
        m2.package_id = m.package_id ∧ m2.name = m.name ∧
        m2.«section» = m.«section» ∧ m2.lang = m.lang := by
    intro stx row hid he hnext
    have hfresh : ∀ m ∈ st.manpages, m.id ≠ row.id := by
      intro m hm
      have := hlt m hm
      omega
    have happ : stx.manpages = st.manpages ++ [row] := by
      rw [he]
      exact saveManPage_fresh st.manpages row hfresh
    constructor
    · constructor
      · rw [happ, List.map_append, List.nodup_append]
        refine ⟨hnd, by simp, ?_⟩
        intro x hx
        rcases List.mem_map.mp hx with ⟨m, hm, hme⟩
        simp only [List.map_cons, List.map_nil, List.mem_cons, List.not_mem_nil, or_false]
        intro hxe
        exact hfresh m hm (hme.trans hxe)
      · intro m hm
        rw [happ] at hm
        rcases List.mem_append.mp hm with h2 | h2
        · have := hlt m h2
          omega
        · rw [List.mem_singleton.mp h2, hid, hnext]
          omega
    · intro m hm
      exact ⟨m, by rw [happ]; exact List.mem_append.mpr (Or.inl hm), rfl, rfl, rfl, rfl⟩
  cases e with
  | file path contents =>
      simp only [process_entry, process_file] at h
      split at h
      · simp only [Except.ok.injEq, Prod.mk.injEq] at h
        exact h.1 ▸ hkeep st rfl rfl
      · split at h
        · simp only [Except.ok.injEq, Prod.mk.injEq] at h
          exact h.1 ▸ hkeep st rfl rfl
        · split at h
          · simp only [Except.ok.injEq, Prod.mk.injEq] at h
            exact h.1 ▸ hkeep st rfl rfl
          · split at h
            · split at h
              · simp at h
              · simp only [Except.ok.injEq, Prod.mk.injEq] at h
                obtain ⟨h1, h2⟩ := h
                subst h1
                exact hkeep _ rfl rfl
            · split at h
              · simp only [Except.ok.injEq, Prod.mk.injEq] at h
                obtain ⟨h1, h2⟩ := h
                subst h1
                exact hnew _ _ rfl rfl rfl
              · simp at h
  | hardlink source target =>
      simp only [process_entry, process_hardlink] at h
      split at h
      · simp only [Except.ok.injEq, Prod.mk.injEq] at h
        exact h.1 ▸ hkeep st rfl rfl
      · split at h
        · simp only [Except.ok.injEq, Prod.mk.injEq] at h
          exact h.1 ▸ hkeep st rfl rfl
        · split at h
          · simp only [Except.ok.injEq, Prod.mk.injEq] at h
            exact h.1 ▸ hkeep st rfl rfl
          · split at h
            · simp only [Except.ok.injEq, Prod.mk.injEq] at h
              exact h.1 ▸ hkeep st rfl rfl
            · split at h
              · simp at h
              · next mtarget hft =>
                  split at h
                  · next m1 hfind =>
                      split at h
                      · simp only [Except.ok.injEq, Prod.mk.injEq] at h
                        obtain ⟨h1, h2⟩ := h
                        subst h1
                        have hm1 : m1 ∈ st.manpages := by
                          have := hfind
                          unfold findManPage at this
                          exact List.mem_of_mem_filter (List.mem_of_mem_head? this)
                        exact hupdate _ m1 { m1 with content_id := mtarget.content_id }
                          hm1 rfl rfl rfl rfl rfl rfl rfl
                      · simp at h
                  · split at h
                    · simp only [Except.ok.injEq, Prod.mk.injEq] at h
                      obtain ⟨h1, h2⟩ := h
                      subst h1
                      exact hnew _ _ rfl rfl rfl
                    · simp at h
  | symlink source target =>
      simp only [process_entry, process_symlink] at h
      split at h
      · simp only [Except.ok.injEq, Prod.mk.injEq] at h
        exact h.1 ▸ hkeep st rfl rfl
      · split at h
        · simp only [Except.ok.injEq, Prod.mk.injEq] at h
          exact h.1 ▸ hkeep st rfl rfl
        · split at h
          · simp only [Except.ok.injEq, Prod.mk.injEq] at h
            exact h.1 ▸ hkeep st rfl rfl
          · split at h
            · simp only [Except.ok.injEq, Prod.mk.injEq] at h
              exact h.1 ▸ hkeep st rfl rfl
            · split at h
              · simp only [Except.ok.injEq, Prod.mk.injEq] at h
                obtain ⟨h1, h2⟩ := h
                subst h1
                exact hkeep _ rfl rfl
              · simp at h

theorem process_entries_rows (decode : Str → Option Str → Str) (pkgId : Nat)
    (entries : List ManContent) :
    ∀ (st : SyncState) (keys : List ManKey) (st2 : SyncState) (keys2 : List ManKey),
    ManIdsOk st →
    process_entries decode pkgId (st, keys) entries = .ok (st2, keys2) →
    ManIdsOk st2 ∧
    ∀ m ∈ st.manpages, ∃ m2 ∈ st2.manpages,
      m2.package_id = m.package_id ∧ m2.name = m.name ∧
      m2.«section» = m.«section» ∧ m2.lang = m.lang := by
  induction entries with
  | nil =>
      intro st keys st2 keys2 hids h
      simp only [process_entries, Except.ok.injEq, Prod.mk.injEq] at h
      obtain ⟨h1, h2⟩ := h
      subst h1
      exact ⟨hids, fun m hm => ⟨m, hm, rfl, rfl, rfl, rfl⟩⟩
  | cons e rest ih =>
      intro st keys st2 keys2 hids h
      simp only [process_entries] at h
      split at h
      · simp at h
      · next acc2 heq =>
          obtain ⟨hids2, hrows⟩ := process_entry_rows decode pkgId st keys e acc2.1 acc2.2
            hids (by rw [heq])
          obtain ⟨hids3, hrows2⟩ := ih acc2.1 acc2.2 st2 keys2 hids2 h
          refine ⟨hids3, ?_⟩
          intro m hm
          obtain ⟨m2, hm2, he1, he2, he3, he4⟩ := hrows m hm
          obtain ⟨m3, hm3, hf1, hf2, hf3, hf4⟩ := hrows2 m2 hm2
          exact ⟨m3, hm3, by rw [hf1, he1], by rw [hf2, he2], by rw [hf3, he3],
            by rw [hf4, he4]⟩

/-- C8: the frame of the per-package man-page reconciliation.  A package
whose man-file enumeration yields no files is skipped entirely: its stored
rows are left untouched (no deletion, no update).  For a package with
entries whose pass succeeds, a previously stored row of that package
survives (with its key intact) exactly when its `(name, section, lang)` key
is in the key set accumulated during the pass; every stored row of the
package whose key is not in that set is deleted. -/
theorem C8_reconciliation_frame (decode : Str → Option Str → Str) (st : SyncState)
    (pkgId : Nat) (files : List Str) (entries : List ManContent)
    (hids : ManIdsOk st) :
    (files = [] → update_package_man_pages decode st pkgId files entries = .ok st) ∧
    (∀ st2 keys, files ≠ [] →
      process_entries decode pkgId (st, []) entries = .ok (st2, keys) →
      (update_package_man_pages decode st pkgId files entries =
        .ok (delete_missing_pages st2 pkgId keys)) ∧
      ∀ r ∈ st.manpages, r.package_id = pkgId →
        (((r.name, r.«section», r.lang) ∈ keys →
          ∃ r2 ∈ (delete_missing_pages st2 pkgId keys).manpages,
            r2.package_id = pkgId ∧ r2.name = r.name ∧ r2.«section» = r.«section» ∧
            r2.lang = r.lang) ∧
        ((r.name, r.«section», r.lang) ∉ keys →
          ∀ r2 ∈ (delete_missing_pages st2 pkgId keys).manpages,
            ¬(r2.package_id = pkgId ∧ r2.name = r.name ∧ r2.«section» = r.«section» ∧
              r2.lang = r.lang)))) := by
  constructor
  · intro hf
    unfold update_package_man_pages
    simp [hf]
  · intro st2 keys hne hproc
    constructor
    · unfold update_package_man_pages
      simp only [hne, if_false, hproc]
    · intro r hr hpkg
      obtain ⟨hids2, hrows⟩ :=
        process_entries_rows decode pkgId entries st [] st2 keys hids hproc
      constructor
      · intro hkey
        obtain ⟨r2, hr2, he1, he2, he3, he4⟩ := hrows r hr
        refine ⟨r2, ?_, by rw [he1, hpkg], he2, he3, he4⟩
        simp only [delete_missing_pages]
        apply List.mem_filter.mpr
        refine ⟨hr2, ?_⟩
        have : (r2.name, r2.«section», r2.lang) ∈ keys := by
          rw [he2, he3, he4]
          exact hkey
        simp [this]
      · intro hkey r2 hr2 hmatch
        obtain ⟨hp2, hn2, hs2, hl2⟩ := hmatch
        have hcond := (List.mem_filter.mp (by
          simpa only [delete_missing_pages] using hr2)).2
        rcases (by simpa using hcond :
            ¬ r2.package_id = pkgId ∨ (r2.name, r2.«section», r2.lang) ∈ keys) with hc | hc
        · exact hc hp2
        · rw [hn2, hs2, hl2] at hc
          exact hkey hc

/-- Witness for C8: running the pass with one file entry `a(1)` over a
state holding the stale page `old(1)` of the same package deletes the
stale page and keeps the new one. -/
theorem C8_witness :
    update_package_man_pages decodeId stC8 1 [str "usr/share/man/man1/a.1.gz"]
      entriesC8 =
      .ok (delete_missing_pages
        ({ stC8 with
            contents := saveContent stC8.contents
              ⟨10, str "hello", none, none, none⟩,
            next_content_id := 11,
            manpages := saveManPage stC8.manpages
              ⟨10, 1, str "a", str "1", str "en", 10, none⟩,
            next_man_id := 11 }) 1 [(str "a", str "1", str "en")]) :=
  ((C8_reconciliation_frame decodeId stC8 1 [str "usr/share/man/man1/a.1.gz"]
      entriesC8 (by constructor <;> decide)).2
    ({ stC8 with
        contents := saveContent stC8.contents ⟨10, str "hello", none, none, none⟩,
        next_content_id := 11,
        manpages := saveManPage stC8.manpages ⟨10, 1, str "a", str "1", str "en", 10, none⟩,
        next_man_id := 11 }) [(str "a", str "1", str "en")]
    (by decide) (by rfl)).1

/-! ### C5: cycle detection and the recursion-depth ceiling -/

theorem mem_addId (i x : Nat) (vs : List Nat) (hx : x ∈ addId i vs) :
    x = i ∨ x ∈ vs := by
  unfold addId at hx
  split at hx
  · exact Or.inr hx
  · rcases List.mem_cons.mp hx with h | h
    · exact Or.inl h
    · exact Or.inr h

theorem gpcLines_err (db : Database) (p : ManPage)
    (recur : ManPage → PreprocResult Str) (q : ManPage) (e : SoelimError) :
    ∀ (pre : List Str) (line : Str) (post : List Str) (target : Str),
    (∀ l ∈ pre, soDirective l = none) →
    soDirective line = some target →
    replLookup db p target = .recurse q →
    recur q = .err e →
    gpcLines db p recur (pre ++ line :: post) = .err e := by
  intro pre
  induction pre with
  | nil =>
      intro line post target hpre hline hlook hrec
      simp only [List.nil_append, gpcLines, hline, hlook, hrec]
  | cons l rest ih =>
      intro line post target hpre hline hlook hrec
      have hl : soDirective l = none := hpre l (List.mem_cons_self l rest)
      have hrest : ∀ x ∈ rest, soDirective x = none :=
        fun x hx => hpre x (List.mem_cons_of_mem l hx)
      simp only [List.cons_append, gpcLines, hl, List.append_eq]
      rw [ih line post target hrest hline hlook hrec]

theorem gpc_entry_cycle (db : Database) (fuel : Nat) (p : ManPage)
    (vs : List Nat) (lv : Nat) (hmem : p.id ∈ vs) :
    get_preprocessed_content db (fuel + 1) p (some vs) lv = .err .inclusionCycle := by
  simp [get_preprocessed_content, hmem]

theorem gpc_entry_depth (db : Database) (fuel : Nat) (p : ManPage)
    (vs : List Nat) (lv : Nat) (hnm : p.id ∉ vs) (hlv : 100 < lv) :
    get_preprocessed_content db (fuel + 1) p (some vs) lv = .err .depthExceeded := by
  simp [get_preprocessed_content, hnm, hlv]

theorem gpc_step_err_root (db : Database) (p q : ManPage) (hcs : ChainStep db p q)
    (fuel : Nat) (e : SoelimError)
    (hrec : get_preprocessed_content db fuel q (some (addId p.id [p.id])) 1 = .err e) :
    get_preprocessed_content db (fuel + 1) p none 0 = .err e := by
  obtain ⟨hconv, raw, pre, line, post, target, hraw, hnotpure, hsplit, hline, hpre, hlook⟩ := hcs
  simp only [get_preprocessed_content, hconv, resolve_so_target, hraw, hnotpure, hsplit]
  rw [gpcLines_err db p _ q e pre line post target hpre hline hlook hrec]

theorem gpc_step_err_some (db : Database) (p q : ManPage) (hcs : ChainStep db p q)
    (fuel lv : Nat) (vs : List Nat) (e : SoelimError)
    (hnotmem : p.id ∉ vs) (hlv : lv ≤ 100)
    (hrec : get_preprocessed_content db fuel q (some (addId p.id vs)) (lv + 1) = .err e) :
    get_preprocessed_content db (fuel + 1) p (some vs) lv = .err e := by
  obtain ⟨hconv, raw, pre, line, post, target, hraw, hnotpure, hsplit, hline, hpre, hlook⟩ := hcs
  have hlv2 : ¬ lv > 100 := by omega
  simp only [get_preprocessed_content, hnotmem, hlv2, if_false, hconv,
    resolve_so_target, hraw, hnotpure, hsplit]
  rw [gpcLines_err db p _ q e pre line post target hpre hline hlook hrec]

/-- C5: termination and error behaviour of recursive `.so` elimination.

1. For every pair of pages A, B whose contents form an inclusion chain
   A→B→A, `get_preprocessed_content` raises the inclusion-cycle error — for
   *every* fuel bound of at least 3, so the recursion terminates after
   visiting each page once and never loops or overflows.
2. Independently of cycle detection, along any inclusion chain of pairwise
   distinct pages the call on its head raises the depth-exceeded error as
   soon as the recursion depth exceeds the ceiling of 100 (again for every
   sufficient fuel bound: the chain is cut at depth 101). -/
theorem C5_inclusion_cycle_and_depth_limit (db : Database) :
    (∀ pA pB, ChainStep db pA pB → ChainStep db pB pA →
      ∀ fuel, 3 ≤ fuel →
        get_preprocessed_content db fuel pA none 0 = .err .inclusionCycle) ∧
    (∀ c : Nat → ManPage,
      (∀ i, i ≤ 100 → ChainStep db (c i) (c (i + 1))) →
      (∀ i j, i ≤ 101 → j ≤ 101 → i ≠ j → (c i).id ≠ (c j).id) →
      ∀ fuel, 103 ≤ fuel →
        get_preprocessed_content db fuel (c 0) none 0 = .err .depthExceeded) := by
  constructor
  · intro pA pB hAB hBA fuel hfuel
    obtain ⟨f, rfl⟩ : ∃ f, fuel = f + 2 + 1 := ⟨fuel - 3, by omega⟩
    apply gpc_step_err_root db pA pB hAB (f + 2)
    have haddA : addId pA.id [pA.id] = [pA.id] := by simp [addId]
    rw [haddA]
    by_cases hid : pB.id = pA.id
    · have hmem : pB.id ∈ [pA.id] := by simp [hid]
      exact gpc_entry_cycle db (f + 1) pB [pA.id] 1 hmem
    · apply gpc_step_err_some db pB pA hBA (f + 1) 1 [pA.id] .inclusionCycle
        (by simp [hid]) (by omega)
      have hmem : pA.id ∈ addId pB.id [pA.id] := by simp [addId, hid]
      exact gpc_entry_cycle db f pA _ 2 hmem
  · intro c hstep hdist fuel hfuel
    have H : ∀ m : Nat, m ≤ 100 →
        ∀ (vs : List Nat) (fuel2 : Nat), m + 1 ≤ fuel2 →
        (∀ x ∈ vs, ∃ j, j < 101 - m ∧ x = (c j).id) →
        get_preprocessed_content db fuel2 (c (101 - m)) (some vs) (101 - m) =
          .err .depthExceeded := by
      intro m
      induction m with
      | zero =>
          intro _ vs fuel2 hf hvs
          obtain ⟨f2, rfl⟩ : ∃ f2, fuel2 = f2 + 1 := ⟨fuel2 - 1, by omega⟩
          apply gpc_entry_depth
          · intro hmem
            obtain ⟨j, hj, he⟩ := hvs _ hmem
            exact hdist j 101 (by omega) (by omega) (by omega) he.symm
          · omega
      | succ n ih =>
          intro hm vs fuel2 hf hvs
          obtain ⟨f2, rfl⟩ : ∃ f2, fuel2 = f2 + 1 := ⟨fuel2 - 1, by omega⟩
          have hk1 : 101 - (n + 1) + 1 = 101 - n := by omega
          apply gpc_step_err_some db (c (101 - (n + 1))) (c (101 - (n + 1) + 1))
            (hstep _ (by omega)) f2 (101 - (n + 1)) vs .depthExceeded
          · intro hmem
            obtain ⟨j, hj, he⟩ := hvs _ hmem
            exact hdist j (101 - (n + 1)) (by omega) (by omega) (by omega) he.symm
          · omega
          · rw [hk1]
            apply ih (by omega) _ f2 (by omega)
            intro x hx
            rcases mem_addId _ _ _ hx with h | h
            · exact ⟨101 - (n + 1), by omega, h⟩
            · obtain ⟨j, hj, he⟩ := hvs _ h
              exact ⟨j, by omega, he⟩
    obtain ⟨f, rfl⟩ : ∃ f, fuel = f + 1 := ⟨fuel - 1, by omega⟩
    apply gpc_step_err_root db (c 0) (c 1) (hstep 0 (by omega)) f
    have hadd : addId (c 0).id [(c 0).id] = [(c 0).id] := by simp [addId]
    rw [hadd]
    show get_preprocessed_content db f (c (101 - 100)) (some [(c 0).id]) (101 - 100) =
      .err .depthExceeded
    apply H 100 (by omega) [(c 0).id] f (by omega)
    intro x hx
    rw [List.mem_singleton.mp hx]
    exact ⟨0, by omega, rfl⟩

/-- Witness for C5: the sample two-page cycle `a(1) → b(1) → a(1)` raises
the inclusion-cycle error at fuel 3 (one visit per page plus the entry
that detects the cycle). -/
theorem C5_witness :
    get_preprocessed_content dbC5 3 pageC5a none 0 = .err .inclusionCycle :=
  (C5_inclusion_cycle_and_depth_limit dbC5).1 pageC5a pageC5b
    ⟨rfl, str "x\n.so b.1", [str "x"], str ".so b.1", [], str "b.1",
      by decide, by decide, by decide, by decide, by decide, by decide⟩
    ⟨rfl, str "y\n.so a.1", [str "y"], str ".so a.1", [], str "a.1",
      by decide, by decide, by decide, by decide, by decide, by decide⟩
    3 (by omega)

/-! ### C10: redirects on a prefix-only section match -/

/-- C10: when the request's parsed section matches the best-matching stored
page's section only as a strict prefix (in the code: the parsed section,
possibly unset, differs from the matched page's section), `man_page` does
not serve that page directly.  If a symlink source best-matches the
requested name/section/language scope and its section ranks strictly
better under the section-priority key than the matched page's section, the
response redirects to the symlink's target with the repo/package scope
dropped; otherwise it redirects to the URL carrying the matched page's
exact section (keeping the scope). -/
theorem C10_prefix_section_redirect (vercmp : Str → Str → Int) (db : Database)
    (repo pkgname : Option Str) (name_section_lang : Str) (url_output_type : Option Str)
    (man_name : Str) (man_section url_lang : Option Str) (mp : ManPage × Package)
    (hvalid : (repo.isSome && pkgname.isNone) = false)
    (hne : name_section_lang ≠ [])
    (hparse : _parse_man_name_section_lang db name_section_lang =
      (man_name, man_section, url_lang))
    (hout : pyOr url_output_type (str "html") = str "html" ∨
      pyOr url_output_type (str "html") = str "txt" ∨
      pyOr url_output_type (str "html") = str "raw")
    (hbest : bestManPage vercmp db repo pkgname man_name man_section
      (pyOr url_lang (str "en")) = some mp)
    (hmismatch : man_section ≠ some mp.1.«section») :
    (∀ lp, get_symlink vercmp db repo pkgname man_name man_section
        (pyOr url_lang (str "en")) = some lp →
      (keyLt (_get_section_key lp.1.from_section) (_get_section_key mp.1.«section») = true →
        man_page vercmp db repo pkgname name_section_lang url_output_type =
          .redirect (reverse_man_url [] [] lp.1.to_name (some lp.1.to_section)
            (some lp.1.lang) url_output_type)) ∧
      (keyLt (_get_section_key lp.1.from_section) (_get_section_key mp.1.«section») = false →
        man_page vercmp db repo pkgname name_section_lang url_output_type =
          .redirect (reverse_man_url (repo.getD []) (pkgname.getD []) man_name
            (some mp.1.«section») url_lang url_output_type))) ∧
    (get_symlink vercmp db repo pkgname man_name man_section
        (pyOr url_lang (str "en")) = none →
      man_page vercmp db repo pkgname name_section_lang url_output_type =
        .redirect (reverse_man_url (repo.getD []) (pkgname.getD []) man_name
          (some mp.1.«section») url_lang url_output_type)) := by
  have hvalid2 : ¬ (repo.isSome && pkgname.isNone) = true := by rw [hvalid]; simp
  have houtc : ¬ (pyOr url_output_type (str "html") ≠ str "html" ∧
      pyOr url_output_type (str "html") ≠ str "txt" ∧
      pyOr url_output_type (str "html") ≠ str "raw") := by
    rcases hout with h | h | h <;> simp [h]
  constructor
  · intro lp hlp
    constructor
    · intro hkey
      simp only [man_page, hvalid2, if_false, hne, hparse, houtc, hbest, hmismatch,
        hlp, hkey, if_true, ite_false, ite_true]
      simp [hne, hmismatch]
    · intro hkey
      simp only [man_page, hvalid2, if_false, hne, hparse, houtc, hbest, hmismatch,
        hlp, hkey, if_true, ite_false, ite_true]
      simp [hne, hmismatch, hkey]
  · intro hnone
    simp only [man_page, hvalid2, if_false, hne, hparse, houtc, hbest, hmismatch,
      hnone, ite_false, ite_true]
    simp [hne, hmismatch]

/-- Witness for C10: requesting `foo.1` against a store holding `foo(1p)`
and a symlink `foo(1) -> bar(1)` redirects to the symlink target with the
scope dropped (the url is `/man/bar.1.en`). -/
theorem C10_witness :
    man_page vercmpEq dbC10 none none (str "foo.1") none =
      .redirect (reverse_man_url [] [] (str "bar") (some (str "1"))
        (some (str "en")) none) :=
  ((C10_prefix_section_redirect vercmpEq dbC10 none none (str "foo.1") none
      (str "foo") (some (str "1")) none (pageC10, pkgC10)
      rfl (by decide) (by decide) (Or.inl rfl) (by decide) (by decide)).1
    (linkC10, pkgC10) (by decide)).1 (by decide)

end Archmanweb
